import Mathlib

/-!
IRI/URI routines of `iri.c`.

A shallow embedding of `iri.c` (character table, `iri_parse`,
`iri_get_connection_part`, `_normalize_path`, `iri_relative_to_absolute`) and
theorems about it.

C memory is a `List Char`: one `Char` stands for one byte, a pointer into a
block is a `Nat` offset, `NULL` is `none`, and a C string is the run of bytes
from an offset up to the first NUL byte.
-/

namespace Iri

/-! ## C strings over a block of bytes -/

/-- The terminating byte of a C string. -/
def NUL : Char := Char.ofNat 0

/-- The read `buf[i]`; outside the block the read gives NUL. -/
def peek (buf : List Char) (i : Nat) : Char := buf.getD i NUL

/-- The write `buf[i] = c`. -/
def poke (buf : List Char) (i : Nat) (c : Char) : List Char := buf.set i c

/-- Bytes of a list up to (not including) the first NUL. -/
def upto_nul : List Char → List Char
  | [] => []
  | c :: cs => if c = NUL then [] else c :: upto_nul cs

/-- The C string that starts at offset `i` of `buf`. -/
def cstr (buf : List Char) (i : Nat) : List Char := upto_nul (buf.drop i)

/-- Number of leading bytes that are neither NUL nor stopped by `stop`. -/
def run (stop : Char → Bool) : List Char → Nat
  | [] => 0
  | c :: cs => if c = NUL ∨ stop c = true then 0 else run stop cs + 1

/-- The loop `while (*s && !stop(*s)) s++`, returning the new `s`. -/
def skip (stop : Char → Bool) (buf : List Char) (s : Nat) : Nat :=
  s + run stop (buf.drop s)

/-- First occurrence of `c` in a C string, as `strchr` finds it (relative offset). -/
def first_at (c : Char) : List Char → Option Nat
  | [] => none
  | x :: xs =>
    if x = c then some 0
    else if x = NUL then none
    else (first_at c xs).map (· + 1)

/-- Last occurrence of `c` in a C string, as `strrchr` finds it (relative offset). -/
def last_at (c : Char) : List Char → Option Nat
  | [] => none
  | x :: xs =>
    if x = NUL then none
    else match last_at c xs with
      | some i => some (i + 1)
      | none => if x = c then some 0 else none

/-- The call `strchr(buf + s, c)` as an offset into `buf`. -/
def strchr (buf : List Char) (s : Nat) (c : Char) : Option Nat :=
  (first_at c (buf.drop s)).map (s + ·)

/-- The call `strrchr(buf + s, c)` as an offset into `buf`. -/
def strrchr (buf : List Char) (s : Nat) (c : Char) : Option Nat :=
  (last_at c (buf.drop s)).map (s + ·)

/-- The libc `isspace` in the "C" locale: space, `\t`, `\n`, `\v`, `\f`, `\r`. -/
def isspace (c : Char) : Bool :=
  c.toNat = 32 ∨ (9 ≤ c.toNat ∧ c.toNat ≤ 13)

/-! ## Character table -/

def IRI_CTYPE_GENDELIM : Nat := 1 <<< 0

def IRI_CTYPE_SUBDELIM : Nat := 1 <<< 0

/-- The table `iri_ctype[256]`: the listed entries, zero everywhere else. -/
def iri_ctype (c : Char) : Nat :=
  if c = ':' then IRI_CTYPE_GENDELIM
  else if c = '/' then IRI_CTYPE_GENDELIM
  else if c = '?' then IRI_CTYPE_GENDELIM
  else if c = '#' then IRI_CTYPE_GENDELIM
  else if c = '[' then IRI_CTYPE_GENDELIM
  else if c = ']' then IRI_CTYPE_GENDELIM
  else if c = '@' then IRI_CTYPE_GENDELIM
  else if c = '!' then IRI_CTYPE_SUBDELIM
  else if c = '$' then IRI_CTYPE_SUBDELIM
  else if c = '&' then IRI_CTYPE_SUBDELIM
  else if c = Char.ofNat 92 then IRI_CTYPE_SUBDELIM  -- backslash
  else if c = Char.ofNat 39 then IRI_CTYPE_SUBDELIM  -- single quote
  else if c = '(' then IRI_CTYPE_SUBDELIM
  else if c = ')' then IRI_CTYPE_SUBDELIM
  else if c = '*' then IRI_CTYPE_SUBDELIM
  else if c = '+' then IRI_CTYPE_SUBDELIM
  else if c = ',' then IRI_CTYPE_SUBDELIM
  else if c = ';' then IRI_CTYPE_SUBDELIM
  else if c = '=' then IRI_CTYPE_SUBDELIM
  else 0

/-- The macro `_iri_isgendelim(c)`: `iri_ctype[c] & IRI_CTYPE_GENDELIM`, as a truth value. -/
def _iri_isgendelim (c : Char) : Bool := (iri_ctype c &&& IRI_CTYPE_GENDELIM) != 0

/-- The macro `_iri_issubdelim(c)`: `iri_ctype[c] & IRI_CTYPE_SUBDELIM`, as a truth value. -/
def _iri_issubdelim (c : Char) : Bool := (iri_ctype c &&& IRI_CTYPE_SUBDELIM) != 0

def iri_isgendelim (c : Char) : Bool := _iri_isgendelim c

def iri_issubdelim (c : Char) : Bool := _iri_issubdelim c

def iri_isreserved (c : Char) : Bool := iri_isgendelim c || iri_issubdelim c

/-! ## The parsed reference -/

/-- Modelled from the spec: the struct `IRI` of `iri.h`, which is not among
the sources. Its fields are the ones `iri.c` assigns: `uri` (the untouched
copy of the input) and the seven component pointers, each `NULL` (`none`) or
an offset into the working copy `mem` that lives in the same allocation. -/
structure IRI where
  mem : List Char
  uri : List Char
  scheme : Option Nat
  userinfo : Option Nat
  host : Option Nat
  port : Option Nat
  path : Option Nat
  query : Option Nat
  fragment : Option Nat
deriving DecidableEq, Repr

/-- The text a component pointer denotes: absent for `NULL`, else the C string at it. -/
def IRI.text (iri : IRI) (field : Option Nat) : Option (List Char) :=
  field.map (cstr iri.mem)

/-- The parsed components as texts, in the order
scheme, userinfo, host, port, path, query, fragment. -/
structure Parts where
  scheme : Option (List Char)
  userinfo : Option (List Char)
  host : Option (List Char)
  port : Option (List Char)
  path : Option (List Char)
  query : Option (List Char)
  fragment : Option (List Char)
deriving DecidableEq, Repr

def IRI.parts (iri : IRI) : Parts :=
  { scheme := iri.text iri.scheme
    userinfo := iri.text iri.userinfo
    host := iri.text iri.host
    port := iri.text iri.port
    path := iri.text iri.path
    query := iri.text iri.query
    fragment := iri.text iri.fragment }

/-! ## `iri_parse` -/

/-- The step `c = *s; if (c) *s++ = 0;`: returns `c`, the block and the new `s`. -/
def cut (buf : List Char) (s : Nat) : Char × List Char × Nat :=
  let c := peek buf s
  if c ≠ NUL then (c, poke buf s NUL, s + 1) else (c, buf, s)

/-- Lines 116-125: the scheme scan. Returns the scheme pointer, the block and `s`. -/
def parse_scheme (buf : List Char) : Option Nat × List Char × Nat :=
  let p := 0
  let s := skip _iri_isgendelim buf p
  if peek buf s = ':' then (some p, poke buf s NUL, s + 1)
  else (none, buf, p)

/-- Lines 127-129: `if (s[0] == '/' && s[1] == '/') s += 2;`. -/
def parse_slashes (buf : List Char) (s : Nat) : Nat :=
  if peek buf s = '/' ∧ peek buf (s + 1) = '/' then s + 2 else s

/-- The state after lines 105-163 of `iri_parse`: the reference so far, the
`authority` pointer and the final scan position `s`. -/
structure Scanned where
  iri : IRI
  authority : Nat
  s : Nat
deriving DecidableEq, Repr

/-- The loop condition of line 133 negated: `*s` is `/`, `?` or `#`. -/
def is_auth_end (c : Char) : Bool := c = '/' ∨ c = '?' ∨ c = '#'

/-- The loop condition of line 141 negated: `*s` is `?` or `#`. -/
def is_path_end (c : Char) : Bool := c = '?' ∨ c = '#'

/-- The loop condition of line 149 negated: `*s` is `#`. -/
def is_query_end (c : Char) : Bool := c = '#'

/-- No byte but NUL ends the loops `while (*s) s++`. -/
def is_no_end (_ : Char) : Bool := false

/-- The loop condition of line 185 negated: `*s` is `:`. -/
def is_host_end (c : Char) : Bool := c = ':'

/-- The block `if (c == mark) { field = s; while (*s && !stop(*s)) s++; c = *s; if (c) *s++ = 0; }`
of lines 139-145 (path) and 147-153 (query): the field pointer, `c`, the
block and `s` afterwards. -/
def scan_field (mark : Char) (stop : Char → Bool) (c : Char) (buf : List Char) (s : Nat) :
    Option Nat × Char × List Char × Nat :=
  if c = mark then
    let r := cut buf (skip stop buf s)
    (some s, r.1, r.2.1, r.2.2)
  else (none, c, buf, s)

/-- Lines 131-163 of `iri_parse`, from the `authority` pointer on: the
authority / path / query / fragment scan. -/
def scan_rest (uri : List Char) (scheme : Option Nat) (buf : List Char) (authority : Nat) : Scanned :=
  let s := skip is_auth_end buf authority
  let a := cut buf s
  -- left over: [path][?query][#fragment]
  let p := scan_field '/' is_path_end a.1 a.2.1 a.2.2
  let q := scan_field '?' is_query_end p.2.1 p.2.2.1 p.2.2.2
  let c := q.2.1
  let buf := q.2.2.1
  let s := q.2.2.2
  let f : Option Nat × Nat :=
    if c = '#' then (some s, skip is_no_end buf s)
    else (none, s)
  { iri := { mem := buf, uri := uri, scheme := scheme, userinfo := none, host := none,
             port := none, path := p.1, query := q.1, fragment := f.1 }
    authority := authority
    s := f.2 }

/-- Lines 105-163 of `iri_parse`: whitespace, the two copies, scheme, `//`,
and the authority / path / query / fragment scan. -/
def iri_scan (s_uri : List Char) : Scanned :=
  -- while (isspace(*s_uri)) s_uri++;
  let s_uri := s_uri.dropWhile isspace
  -- both strcpy calls copy the bytes up to the NUL, and the NUL
  let uri := upto_nul s_uri
  let buf := upto_nul s_uri ++ [NUL]
  let sc := parse_scheme buf
  scan_rest uri sc.1 sc.2.1 (parse_slashes sc.2.1 sc.2.2)

/-- Lines 166-172: `p = strchr(authority, '@'); if (p) { iri->userinfo = s; *p = 0; s = p + 1; }`.
Returns the userinfo pointer, the block and `s`. -/
def authority_userinfo (buf : List Char) (authority : Nat) : Option Nat × List Char × Nat :=
  match strchr buf authority '@' with
  | some p => (some authority, poke buf p NUL, p + 1)
  | none => (none, buf, authority)

/-- Lines 173-187: where `s` stands after the host has been scanned. Every branch
first sets `iri->host = s`. -/
def authority_host_end (buf : List Char) (s : Nat) : Nat :=
  if peek buf s = '[' then
    match strrchr buf s ']' with
    | some p => p + 1
    | none => skip is_no_end buf s  -- something is broken
  else skip is_host_end buf s

/-- Lines 188-191: `if (*s == ':') { if (s[1]) iri->port = s + 1; }`. -/
def authority_port (buf : List Char) (s : Nat) : Option Nat :=
  if peek buf s = ':' then
    if peek buf (s + 1) ≠ NUL then some (s + 1) else none
  else none

/-- Lines 165-193 of `iri_parse`: the decomposition of the authority. -/
def iri_authority (st : Scanned) : IRI :=
  let iri := st.iri
  if peek iri.mem st.authority ≠ NUL then
    let u := authority_userinfo iri.mem st.authority
    let host := u.2.2
    let s := authority_host_end u.2.1 host
    let port := authority_port u.2.1 s
    -- *s = 0;
    { iri with mem := poke u.2.1 s NUL, userinfo := u.1, host := some host, port := port }
  else iri

/-- The function `iri_parse`. -/
def iri_parse (s_uri : List Char) : IRI := iri_authority (iri_scan s_uri)

/-- The parsed components of a text, read off the result of `iri_parse`. -/
def parse (s_uri : String) : Parts := (iri_parse s_uri.toList).parts

/-! ## `iri_get_connection_part` -/

/-- The function `iri_get_connection_part`: the text that `sprintf` writes to
`tag`, and whether `len > tagsize`, in which case the text is in a fresh
buffer that is returned (otherwise it is in the caller's buffer and the
function returns `NULL`). `strlen` of a `NULL` field has no defined result:
`none`. -/
def iri_get_connection_part (iri : IRI) (tagsize : Nat) : Option (List Char × Bool) :=
  if iri.scheme.isSome then
    if iri.port.isSome then do
      let scheme ← iri.text iri.scheme
      let host ← iri.text iri.host
      let port ← iri.text iri.port
      let len := scheme.length + host.length + port.length + 4 + 1
      -- sprintf(tag, "%s://%s:%s", iri->scheme, iri->host, iri->port)
      pure (scheme ++ [':', '/', '/'] ++ host ++ [':'] ++ port, decide (len > tagsize))
    else do
      let scheme ← iri.text iri.scheme
      let host ← iri.text iri.host
      let len := scheme.length + host.length + 3 + 1
      -- sprintf(tag, "%s://%s", iri->scheme, iri->host)
      pure (scheme ++ [':', '/', '/'] ++ host, decide (len > tagsize))
  else
    if iri.port.isSome then do
      let host ← iri.text iri.host
      let port ← iri.text iri.port
      let len := host.length + port.length + 1 + 1
      -- sprintf(tag, "%s:%s", iri->host, iri->port)
      pure (host ++ [':'] ++ port, decide (len > tagsize))
    else do
      let host ← iri.text iri.host
      let len := host.length + 1
      -- sprintf(tag, "%s", iri->host)
      pure (host, decide (len > tagsize))

/-! ## `_normalize_path` -/

/-- The test `strncmp(buf + p, lit, n) == 0`. -/
def strncmp_eq (buf : List Char) (p : Nat) (lit : List Char) (n : Nat) : Bool :=
  (cstr buf p).take n = (upto_nul lit).take n

/-- The test `strcmp(buf + p, lit) == 0`. -/
def strcmp_eq (buf : List Char) (p : Nat) (lit : List Char) : Bool :=
  cstr buf p = upto_nul lit

/-- The loop `while (p1 > path && *--p1 != '/');`, returning the new `p1`. -/
def go_up (buf : List Char) : Nat → Nat
  | 0 => 0
  | p1 + 1 => if peek buf p1 ≠ '/' then go_up buf p1 else p1

/-- Lines 246-259: the loop that skips `./` and `../` at the beginning of
the path, returning the new `p2`; `none` when the iteration bound `fuel`
is used up before the loop ends. -/
def norm_lead : Nat → List Char → Nat → Option Nat
  | 0, _, _ => none
  | fuel + 1, buf, p2 =>
    if peek buf p2 = '.' ∨ peek buf p2 = '/' then
      if peek buf p2 = '/' then norm_lead fuel buf (p2 + 1)
      else if peek buf p2 = '.' then
        if peek buf (p2 + 1) = '/' then norm_lead fuel buf (p2 + 2)
        else if peek buf (p2 + 1) = '.' ∧ peek buf (p2 + 2) = '/' then norm_lead fuel buf (p2 + 3)
        else some p2
      else some p2
    else some p2

/-- Lines 261-285: the loop `while (*p2)`, returning the block and `p1` at
its end; `none` when the iteration bound `fuel` is used up before. -/
def norm_main : Nat → List Char → Nat → Nat → Option (List Char × Nat)
  | 0, _, _, _ => none
  | fuel + 1, buf, p1, p2 =>
    if peek buf p2 ≠ NUL then
      if peek buf p2 = '/' then
        if peek buf (p2 + 1) = '.' then
          if strncmp_eq buf p2 ['/', '.', '.', '/'] 4 then
            -- go one level up
            norm_main fuel buf (go_up buf p1) (p2 + 3)
          else if strcmp_eq buf p2 ['/', '.', '.'] then
            norm_main fuel buf (go_up buf p1) (p2 + 3)
          else if strncmp_eq buf p2 ['/', '.', '/'] 3 then
            norm_main fuel buf p1 (p2 + 2)
          else if strcmp_eq buf p2 ['/', '.'] then
            norm_main fuel buf p1 (p2 + 2)
          else
            norm_main fuel (poke buf p1 (peek buf p2)) (p1 + 1) (p2 + 1)
        else if p1 = 0 then
          norm_main fuel buf p1 (p2 + 1)  -- avoid leading slash
        else if peek buf (p2 + 1) = '/' then
          norm_main fuel buf p1 (p2 + 1)  -- double slash to single slash
        else
          norm_main fuel (poke buf p1 (peek buf p2)) (p1 + 1) (p2 + 1)
      else
        norm_main fuel (poke buf p1 (peek buf p2)) (p1 + 1) (p2 + 1)
    else some (buf, p1)

/-- The body of the loop `while (*p2)` of lines 261-285, run once: the block, `p1` and
`p2` after it. `norm_main` iterates it (`norm_main_succ`). -/
def norm_step (buf : List Char) (p1 p2 : Nat) : List Char × Nat × Nat :=
  if peek buf p2 = '/' then
    if peek buf (p2 + 1) = '.' then
      if strncmp_eq buf p2 ['/', '.', '.', '/'] 4 then (buf, go_up buf p1, p2 + 3)
      else if strcmp_eq buf p2 ['/', '.', '.'] then (buf, go_up buf p1, p2 + 3)
      else if strncmp_eq buf p2 ['/', '.', '/'] 3 then (buf, p1, p2 + 2)
      else if strcmp_eq buf p2 ['/', '.'] then (buf, p1, p2 + 2)
      else (poke buf p1 (peek buf p2), p1 + 1, p2 + 1)
    else if p1 = 0 then (buf, p1, p2 + 1)
    else if peek buf (p2 + 1) = '/' then (buf, p1, p2 + 1)
    else (poke buf p1 (peek buf p2), p1 + 1, p2 + 1)
  else (poke buf p1 (peek buf p2), p1 + 1, p2 + 1)

/-- The function `_normalize_path` on the block that starts at `path`:
the block afterwards and the returned length `p1 - path`. Every iteration of
either loop moves `p2` forward, so the length of the block bounds both. -/
def _normalize_path (buf : List Char) : Option (List Char × Nat) := do
  let p2 ← norm_lead (buf.length + 1) buf 0
  let (buf, p1) ← norm_main (buf.length + 1) buf 0 p2
  -- *p1 = 0;
  pure (poke buf p1 NUL, p1)

/-- The path normalizer on a text: `_normalize_path` run on a block holding
the text and its NUL, and the C string left in the block. -/
def normalize_path (path : List Char) : Option (List Char) :=
  (_normalize_path (upto_nul path ++ [NUL])).map (fun r => cstr r.1 0)

/-- The authority run of a text: the C string at the `authority` pointer
when the scan of lines 131-163 is over, before it is decomposed. -/
def authority_run (s_uri : List Char) : List Char :=
  cstr (iri_scan s_uri).iri.mem (iri_scan s_uri).authority

/-- The seven gen-delimiters as the specification lists them: `: / ? # [ ] @`. -/
def spec_gen_delims : List Char := [':', '/', '?', '#', '[', ']', '@']

/-! ## `iri_relative_to_absolute` -/

/-- Modelled from the spec: the bounded-copy helper `strlcpy(dst, src, size)`, which is
not among the sources: the text left in `dst`, the C string `src` cut to `size - 1`
bytes. -/
def strlcpy (src : List Char) (size : Nat) : List Char := (upto_nul src).take (size - 1)

/-- The libc `snprintf(dst, size, ...)`: the text left in `dst`, the formatted output
`out` cut to `size - 1` bytes. -/
def snprintf (size : Nat) (out : List Char) : List Char := out.take (size - 1)

/-- The conversion `%.*s` with precision `n`: at most `n` bytes of the C string `s`. -/
def str_prec (n : Nat) (s : List Char) : List Char := (upto_nul s).take n

/-- The function `iri_relative_to_absolute`: `tag` and `val` are the bytes at these
pointers, and `val` is read with the explicit length `len`. Returns the text left in
`dst` and whether `dst_len > dst_size`, in which case `dst` is a fresh buffer that is
returned (otherwise the caller's buffer is used and the function returns `NULL`);
`none` when `_normalize_path` uses up its iteration bound. -/
def iri_relative_to_absolute (iri : IRI) (tag val : List Char) (len dst_size : Nat) :
    Option (List Char × Bool) :=
  -- iri->scheme ? iri->scheme : "http"
  let scheme := match iri.text iri.scheme with
    | some s => s
    | none => ['h', 't', 't', 'p']
  if peek val 0 = '/' then
    -- char path[len + 1]; strlcpy(path, val, len + 1);
    let path := strlcpy val (len + 1) ++ [NUL]
    if len ≥ 2 ∧ peek val 1 = '/' then
      -- absolute URI without scheme: //authority/path...
      match strchr path 2 '/' with
      | some p => do
        let r ← _normalize_path (path.drop (p + 1))
        let path := path.take (p + 1) ++ r.1
        let dst_len := (r.2 + p + 1) + (scheme.length + 1 + 1)
        -- snprintf(dst, dst_len, "%s:%s", scheme, path)
        pure (snprintf dst_len (scheme ++ [':'] ++ cstr path 0), decide (dst_len > dst_size))
      | none =>
        let dst_len := 0 + (scheme.length + 1 + 1)
        some (snprintf dst_len (scheme ++ [':'] ++ cstr path 0), decide (dst_len > dst_size))
    else do
      -- absolute path
      let r ← _normalize_path path
      let dst_len := (upto_nul tag).length + r.2 + 1 + 1
      -- snprintf(dst, dst_len, "%s/%s", tag, path)
      pure (snprintf dst_len (upto_nul tag ++ ['/'] ++ cstr r.1 0), decide (dst_len > dst_size))
  else
    -- see if URI begins with a scheme: memchr(val, ':', len)
    if ':' ∈ val.take len then
      -- absolute URI
      let dst_len := len + 1
      some (strlcpy val dst_len, decide (dst_len > dst_size))
    else
      -- relative URI
      let lastsep := match iri.path with
        | some o => strrchr iri.mem o '/'
        | none => none
      let path := match iri.path, lastsep with
        | some o, some l =>
          -- snprintf(path, pathlen, "%.*s%.*s", lastsep - iri->path + 1, iri->path, len, val)
          snprintf ((l - o) + len + 2) (str_prec (l - o + 1) (iri.mem.drop o) ++ str_prec len val)
            ++ [NUL]
        | _, _ => strlcpy val (len + 1) ++ [NUL]
      do
        let r ← _normalize_path path
        let dst_len := (upto_nul tag).length + r.2 + 1 + 1
        -- snprintf(dst, dst_len, "%s/%s", tag, path)
        pure (snprintf dst_len (upto_nul tag ++ ['/'] ++ cstr r.1 0), decide (dst_len > dst_size))

/-- The directory of the base as the specification describes it: the path field up
through its last `/`, empty if the base has no path or its path has no `/`. -/
def base_dir (iri : IRI) : List Char :=
  match iri.text iri.path with
  | some p =>
    match last_at '/' p with
    | some l => p.take (l + 1)
    | none => []
  | none => []

/-! ## Layout of the block -/

/-- The leading run of a text that `stop` does not stop. -/
def seg (stop : Char → Bool) (r : List Char) : List Char := r.takeWhile (fun c => !stop c)

/-- What is left of a text from the first byte that `stop` stops. -/
def rest (stop : Char → Bool) (r : List Char) : List Char := r.dropWhile (fun c => !stop c)

/-- The block holds the NUL-free text `F` at offset `o`, followed by a NUL. -/
def Sealed (buf : List Char) (o : Nat) (F : List Char) : Prop :=
  NUL ∉ F ∧ ∃ A Z, buf = A ++ (F ++ NUL :: Z) ∧ A.length = o

/-- From offset `s` to its end the block holds the NUL-free text `r` and the final NUL. -/
def At (buf : List Char) (s : Nat) (r : List Char) : Prop :=
  NUL ∉ r ∧ ∃ A, buf = A ++ (r ++ [NUL]) ∧ A.length = s

/-- The field pointer `ptr` denotes the text `txt`: absent when `txt` is, else an
offset above `lo` at which the block holds `txt` and a NUL. -/
def Holds (mem : List Char) (ptr : Option Nat) (txt : Option (List Char)) (lo : Nat) : Prop :=
  match txt with
  | some F => ∃ o, ptr = some o ∧ Sealed mem o F ∧ lo < o
  | none => ptr = none

/-- The text a field block captures from the remaining input `rem`, whose first byte is
the last delimiter met: the run after `mark` up to the next stop, if `rem` starts with `mark`. -/
def field_text (mark : Char) (stop : Char → Bool) (rem : List Char) : Option (List Char) :=
  if rem.head? = some mark then some (seg stop rem.tail) else none

/-- The input that remains after a field block. -/
def field_rest (mark : Char) (stop : Char → Bool) (rem : List Char) : List Char :=
  if rem.head? = some mark then rest stop rem.tail else rem

/-- The scheme a text has for the scan of lines 116-125: the run before the first
byte the table marks, when that byte is `:`. -/
def scheme_text (t : List Char) : Option (List Char) :=
  if (rest _iri_isgendelim t).head? = some ':' then some (seg _iri_isgendelim t) else none

/-- The text after the scheme and its `:`, or the whole text when there is no scheme. -/
def after_scheme (t : List Char) : List Char :=
  if (rest _iri_isgendelim t).head? = some ':' then (rest _iri_isgendelim t).tail else t

/-- The text after a leading `//`, or the text itself when it has none. -/
def after_slashes : List Char → List Char
  | '/' :: '/' :: r => r
  | r => r

/-- The authority run of the text `r` that follows scheme and `//`. -/
def auth_text (r : List Char) : List Char := seg is_auth_end r

/-- What remains of `r` from the delimiter that ends the authority. -/
def rem_auth (r : List Char) : List Char := rest is_auth_end r

/-- The path of `r`, if a `/` ends the authority. -/
def path_text (r : List Char) : Option (List Char) := field_text '/' is_path_end (rem_auth r)

/-- What remains of `r` after the path block. -/
def rem_path (r : List Char) : List Char := field_rest '/' is_path_end (rem_auth r)

/-- The query of `r`, if a `?` ends the authority or the path. -/
def query_text (r : List Char) : Option (List Char) := field_text '?' is_query_end (rem_path r)

/-- What remains of `r` after the query block. -/
def rem_query (r : List Char) : List Char := field_rest '?' is_query_end (rem_path r)

/-- The fragment of `r`, if a `#` was the last delimiter met. -/
def fragment_text (r : List Char) : Option (List Char) :=
  if (rem_query r).head? = some '#' then some (rem_query r).tail else none

/-- The byte `@`, which ends the userinfo. -/
def is_at (c : Char) : Bool := c = '@'

/-- The userinfo of an authority run: the text before its first `@`, if it has one. -/
def user_text (auth : List Char) : Option (List Char) :=
  match rest is_at auth with
  | [] => none
  | _ :: _ => some (seg is_at auth)

/-- The host part of an authority run: the text after its first `@`, or all of it. -/
def host_part (auth : List Char) : List Char :=
  match rest is_at auth with
  | [] => auth
  | _ :: hp => hp

/-- The length of the host within a host part: up to and including the last `]` when the
host part starts with `[` (all of it when no `]` follows), else up to the first `:`. -/
def host_len (hp : List Char) : Nat :=
  if hp.head? = some '[' then
    match last_at ']' hp with
    | some p => p + 1
    | none => hp.length
  else (seg is_host_end hp).length

/-- The host of a host part. -/
def host_text (hp : List Char) : List Char := hp.take (host_len hp)

/-- The port that follows a host: what follows a `:` right after the host, if not empty. -/
def port_of : List Char → Option (List Char)
  | ':' :: c :: P => some (c :: P)
  | _ => none

/-- The port of a host part. -/
def port_text (hp : List Char) : Option (List Char) := port_of (hp.drop (host_len hp))

/-- The C string `iri_parse` works on: the input after its leading whitespace, up to
the NUL. -/
def clean (s_uri : List Char) : List Char := upto_nul (s_uri.dropWhile isspace)

/-- The components of a NUL-free text `t` without leading whitespace, computed on the
text alone: what `iri_parse` is proved to return (`iri_parse_parts`). -/
def parts_spec (t : List Char) : Parts :=
  { scheme := scheme_text t
    userinfo := user_text (auth_text (after_slashes (after_scheme t)))
    host := if auth_text (after_slashes (after_scheme t)) = [] then none
      else some (host_text (host_part (auth_text (after_slashes (after_scheme t)))))
    port := port_text (host_part (auth_text (after_slashes (after_scheme t))))
    path := path_text (after_slashes (after_scheme t))
    query := query_text (after_slashes (after_scheme t))
    fragment := fragment_text (after_slashes (after_scheme t)) }

/-! ## Reassembly -/

/-- The reassembly `scheme://userinfo@host:port/path?query#fragment` of the specification:
each absent field is left out together with its separator. -/
def reassemble (p : Parts) : List Char :=
  (match p.scheme with | some x => x ++ [':', '/', '/'] | none => []) ++
  (match p.userinfo with | some x => x ++ ['@'] | none => []) ++
  (match p.host with | some x => x | none => []) ++
  (match p.port with | some x => ':' :: x | none => []) ++
  (match p.path with | some x => '/' :: x | none => []) ++
  (match p.query with | some x => '?' :: x | none => []) ++
  (match p.fragment with | some x => '#' :: x | none => [])

/-- The specification's path without normalization-sensitive segments: no segment of
the path is `.`, `..` or empty. An absent path has no segment. -/
def plain_path : Option (List Char) → Bool
  | none => true
  | some x => (x.splitOn '/').all (fun sg => sg ≠ [] ∧ sg ≠ ['.'] ∧ sg ≠ ['.', '.'])

/-- The `//` marker goes with the scheme: `//` follows the `:` of the scheme when the text
has one, and the text does not start with `//` when it has none. -/
def marker_ok (t : List Char) : Bool :=
  match scheme_text t with
  | some _ => (after_scheme t).take 2 == ['/', '/']
  | none => t.take 2 != ['/', '/']

/-- What follows the host within a host part. -/
def after_host (hp : List Char) : List Char := hp.drop (host_len hp)

/-- Nothing of the host part is dropped: what follows the host is empty, or is a `:`
and a port that is not empty. -/
def port_ok (hp : List Char) : Bool :=
  after_host hp == [] || (port_of (after_host hp)).isSome

/-- The bytes a scheme is made of in the assembled texts: letters, digits, `-` and `.`. -/
def is_scheme_byte (c : Char) : Bool := c.isAlphanum || c = '-' || c = '.'

/-- The bytes that have an entry in the table `iri_ctype`. -/
def table_bytes : List Char :=
  [':', '/', '?', '#', '[', ']', '@', '!', '$', '&', Char.ofNat 92, Char.ofNat 39, '(', ')',
    '*', '+', ',', ';', '=']

/-- No slash is next to a slash. -/
def NoSlashPair (l : List Char) : Prop := List.Chain' (fun a b => ¬ (a = '/' ∧ b = '/')) l

/-- What holds of the block and the two cursors each time the loop `while (*p2)` tests
its condition, `r` being the text still to read: the block holds `r` and the final NUL
from `p2` on, the write cursor is not past the read cursor, what is written has no NUL
and no two slashes in a row, and it ends in a slash only if no slash is read next. -/
def NormInv (buf : List Char) (p1 p2 : Nat) (r : List Char) : Prop :=
  At buf p2 r ∧ p1 ≤ p2 ∧ NUL ∉ buf.take p1 ∧ NoSlashPair (buf.take p1) ∧
    ((buf.take p1).getLast? = some '/' → peek buf p2 ≠ '/')

/-! ## Reading and writing the block -/

theorem peek_eq_headD (buf : List Char) (i : Nat) : peek buf i = (buf.drop i).headD NUL := by
  induction buf generalizing i with
  | nil => simp [peek]
  | cons x xs ih =>
    cases i with
    | zero => simp [peek]
    | succ n => simp [peek]

theorem upto_nul_eq_nil_iff (l : List Char) : upto_nul l = [] ↔ l.headD NUL = NUL := by
  cases l with
  | nil => simp [upto_nul]
  | cons x xs =>
    by_cases hx : x = NUL <;> simp [upto_nul, hx]

theorem cstr_eq_nil_iff (buf : List Char) (i : Nat) : cstr buf i = [] ↔ peek buf i = NUL := by
  rw [cstr, upto_nul_eq_nil_iff, peek_eq_headD]

theorem iri_scan_host (s_uri : List Char) : (iri_scan s_uri).iri.host = none := rfl

theorem iri_authority_host (st : Scanned) (h : st.iri.host = none) :
    ((iri_authority st).host.isSome ↔ peek st.iri.mem st.authority ≠ NUL) := by
  unfold iri_authority
  by_cases hp : peek st.iri.mem st.authority = NUL
  · simp [hp, h]
  · simp [hp]

theorem upto_nul_append (F Z : List Char) (h : NUL ∉ F) : upto_nul (F ++ NUL :: Z) = F := by
  induction F with
  | nil => simp [upto_nul]
  | cons x xs ih =>
    simp only [List.mem_cons, not_or] at h
    have hx : x ≠ NUL := fun e => h.1 e.symm
    simp [upto_nul, hx, ih h.2]

theorem upto_nul_of_not_mem (F : List Char) (h : NUL ∉ F) : upto_nul F = F := by
  induction F with
  | nil => simp [upto_nul]
  | cons x xs ih =>
    simp only [List.mem_cons, not_or] at h
    have hx : x ≠ NUL := fun e => h.1 e.symm
    simp [upto_nul, hx, ih h.2]

theorem not_mem_upto_nul (l : List Char) : NUL ∉ upto_nul l := by
  induction l with
  | nil => simp [upto_nul]
  | cons x xs ih =>
    by_cases hx : x = NUL
    · simp [upto_nul, hx]
    · simp only [upto_nul, hx, if_false, List.mem_cons, not_or]
      exact ⟨fun e => hx e.symm, ih⟩

theorem Sealed.cstr_eq {buf : List Char} {o : Nat} {F : List Char} (h : Sealed buf o F) :
    cstr buf o = F := by
  obtain ⟨hF, A, Z, rfl, rfl⟩ := h
  rw [cstr, List.drop_left, upto_nul_append _ _ hF]

theorem At.sealed {buf : List Char} {s : Nat} {r : List Char} (h : At buf s r) :
    Sealed buf s r := by
  obtain ⟨hr, A, rfl, rfl⟩ := h
  exact ⟨hr, A, [], rfl, rfl⟩

theorem Sealed.after_poke {buf : List Char} {o : Nat} {F : List Char} (h : Sealed buf o F)
    (p : Nat) (x : Char) (hp : p < o ∨ o + F.length < p) : Sealed (poke buf p x) o F := by
  obtain ⟨hF, A, Z, rfl, rfl⟩ := h
  refine ⟨hF, ?_⟩
  rcases hp with hp | hp
  · refine ⟨A.set p x, Z, ?_, by simp⟩
    rw [Iri.poke, List.set_append_left _ _ hp]
  · obtain ⟨k, rfl⟩ : ∃ k, p = A.length + F.length + (k + 1) := ⟨p - A.length - F.length - 1, by omega⟩
    refine ⟨A, Z.set k x, ?_, rfl⟩
    rw [Iri.poke, List.set_append_right _ _ (by omega),
      List.set_append_right _ _ (by omega)]
    have : A.length + F.length + (k + 1) - A.length - F.length = k + 1 := by omega
    rw [this, List.set_cons_succ]

theorem run_append (stop : Char → Bool) (r Z : List Char) (h : NUL ∉ r) :
    run stop (r ++ NUL :: Z) = (seg stop r).length := by
  induction r with
  | nil => simp [run, seg]
  | cons x xs ih =>
    simp only [List.mem_cons, not_or] at h
    have hx : x ≠ NUL := fun e => h.1 e.symm
    by_cases hs : stop x = true
    · simp [run, seg, hs]
    · simp only [Bool.not_eq_true] at hs
      simp [run, seg, hs, hx]
      simpa [seg] using ih h.2

theorem seg_append_rest (stop : Char → Bool) (r : List Char) : seg stop r ++ rest stop r = r :=
  List.takeWhile_append_dropWhile _ _

theorem rest_head_stop (stop : Char → Bool) (r : List Char) (x : Char) (r1 : List Char)
    (h : rest stop r = x :: r1) : stop x = true := by
  have := List.head?_dropWhile_not (fun c => !stop c) r
  rw [rest] at h
  rw [h] at this
  simpa using this

theorem not_mem_seg (r : List Char) (stop : Char → Bool) (h : NUL ∉ r) : NUL ∉ seg stop r :=
  fun hm => h ((List.takeWhile_sublist _).subset hm)

theorem not_mem_rest (r : List Char) (stop : Char → Bool) (h : NUL ∉ r) : NUL ∉ rest stop r :=
  fun hm => h ((List.dropWhile_sublist _).subset hm)

theorem At.skip_eq {buf : List Char} {s : Nat} {r : List Char} (h : At buf s r)
    (stop : Char → Bool) : skip stop buf s = s + (seg stop r).length := by
  obtain ⟨hr, A, rfl, rfl⟩ := h
  rw [skip, List.drop_left, run_append _ _ _ hr]

theorem At.peek_at {buf : List Char} {s : Nat} {r : List Char} (h : At buf s r) (k : Nat) :
    peek buf (s + k) = (r ++ [NUL]).getD k NUL := by
  obtain ⟨hr, A, rfl, rfl⟩ := h
  rw [peek, List.getD_append_right _ _ _ _ (by omega)]
  simp

/-! ## The scan stages on a laid out block -/

theorem skip_cut_spec (stop : Char → Bool) {buf : List Char} {s : Nat} {r : List Char}
    (h : At buf s r) :
    (cut buf (skip stop buf s)).1 = (rest stop r).headD NUL ∧
    At (cut buf (skip stop buf s)).2.1 (cut buf (skip stop buf s)).2.2 (rest stop r).tail ∧
    Sealed (cut buf (skip stop buf s)).2.1 s (seg stop r) ∧
    ((cut buf (skip stop buf s)).1 = NUL ∨
      s + (seg stop r).length < (cut buf (skip stop buf s)).2.2) ∧
    (∀ o F, Sealed buf o F → o + F.length < s → Sealed (cut buf (skip stop buf s)).2.1 o F) ∧
    s + (seg stop r).length ≤ (cut buf (skip stop buf s)).2.2 := by
  have hsk := h.skip_eq stop
  have hpk := h.peek_at (seg stop r).length
  have hsg := not_mem_seg r stop h.1
  obtain ⟨hr, A, rfl, rfl⟩ := h
  rw [hsk]
  have hsr := seg_append_rest stop r
  generalize seg stop r = sg at *
  generalize rest stop r = rs at *
  subst hsr
  cases rs with
  | nil =>
    have hc : peek (A ++ (sg ++ [] ++ [NUL])) (A.length + sg.length) = NUL := by
      rw [hpk]; simp
    simp only [cut, hc, ne_eq, not_true_eq_false, if_false, List.headD_nil, List.tail_nil,
      true_or, true_and]
    refine ⟨⟨by simp, A ++ sg, by simp, by simp⟩, ⟨hsg, A, [], by simp, rfl⟩, ?_, le_refl _⟩
    intro o F hF _
    exact hF
  | cons x r1 =>
    have hx : x ≠ NUL := by
      intro e
      apply hr
      simp [e]
    have hr1 : NUL ∉ r1 := by
      intro hm
      apply hr
      simp [hm]
    have hc : peek (A ++ (sg ++ x :: r1 ++ [NUL])) (A.length + sg.length) = x := by
      rw [hpk, List.append_assoc, List.getD_append_right _ _ _ _ (le_refl _)]
      simp
    have hpoke : poke (A ++ (sg ++ x :: r1 ++ [NUL])) (A.length + sg.length) NUL
        = A ++ (sg ++ NUL :: (r1 ++ [NUL])) := by
      rw [poke, List.set_append_right _ _ (by omega)]
      simp [List.set_append_right]
    simp only [cut, hc, ne_eq, hx, not_false_eq_true, if_true, List.headD_cons, List.tail_cons,
      true_and, hpoke]
    refine ⟨⟨hr1, A ++ (sg ++ [NUL]), by simp, by simp; omega⟩,
      ⟨hsg, A, r1 ++ [NUL], rfl, rfl⟩, Or.inr (by omega), ?_, by omega⟩
    intro o F hF ho
    rw [← hpoke]
    exact hF.after_poke _ _ (Or.inr (by omega))

theorem scan_field_spec (mark : Char) (stop : Char → Bool) (hm : mark ≠ NUL)
    {c : Char} {buf : List Char} {s : Nat} {rem : List Char}
    (hrem : NUL ∉ rem) (hc : c = rem.headD NUL) (h : At buf s rem.tail) :
    (scan_field mark stop c buf s).2.1 = (field_rest mark stop rem).headD NUL ∧
    At (scan_field mark stop c buf s).2.2.1 (scan_field mark stop c buf s).2.2.2
      (field_rest mark stop rem).tail ∧
    (match field_text mark stop rem with
      | some F => (scan_field mark stop c buf s).1 = some s ∧
          Sealed (scan_field mark stop c buf s).2.2.1 s F ∧
          ((scan_field mark stop c buf s).2.1 = NUL ∨
            s + F.length < (scan_field mark stop c buf s).2.2.2)
      | none => (scan_field mark stop c buf s).1 = none) ∧
    (∀ o F, Sealed buf o F → (c = NUL ∨ o + F.length < s) →
      Sealed (scan_field mark stop c buf s).2.2.1 o F) ∧
    s ≤ (scan_field mark stop c buf s).2.2.2 ∧
    (c = NUL → (scan_field mark stop c buf s).2.1 = NUL) := by
  have hcm : c = mark ↔ rem.head? = some mark := by
    subst hc
    cases rem with
    | nil => simp [hm.symm]
    | cons x xs => simp
  by_cases hcase : c = mark
  · have hh := hcm.1 hcase
    obtain ⟨h1, h2, h3, h4, h5, h6⟩ := skip_cut_spec stop h
    have e1 : (scan_field mark stop c buf s).1 = some s := by simp [scan_field, hcase]
    have e2 : (scan_field mark stop c buf s).2.1 = (cut buf (skip stop buf s)).1 := by
      simp [scan_field, hcase]
    have e3 : (scan_field mark stop c buf s).2.2.1 = (cut buf (skip stop buf s)).2.1 := by
      simp [scan_field, hcase]
    have e4 : (scan_field mark stop c buf s).2.2.2 = (cut buf (skip stop buf s)).2.2 := by
      simp [scan_field, hcase]
    rw [e1, e2, e3, e4]
    simp only [field_rest, field_text, hh, if_true]
    refine ⟨h1, h2, ⟨trivial, h3, h4⟩, ?_, by omega, ?_⟩
    · intro o F hF ho
      rcases ho with ho | ho
      · exact absurd (hcase ▸ ho) hm
      · exact h5 o F hF ho
    · intro e
      exact absurd (hcase ▸ e) hm
  · have hh : ¬ rem.head? = some mark := fun e => hcase (hcm.2 e)
    simp only [scan_field, hcase, if_false, field_rest, field_text, hh]
    refine ⟨hc, h, trivial, ?_, le_refl _, fun e => e⟩
    intro o F hF _
    exact hF

theorem getD_mid (sg rs : List Char) : (sg ++ rs ++ [NUL]).getD sg.length NUL = rs.headD NUL := by
  rw [List.append_assoc, List.getD_append_right _ _ _ _ (le_refl _)]
  cases rs <;> simp

theorem set_mid (sg rs Z : List Char) (x y : Char) :
    (sg ++ x :: rs ++ Z).set sg.length y = sg ++ y :: (rs ++ Z) := by
  rw [List.append_assoc, List.set_append_right _ _ (le_refl _)]
  simp

theorem At.nil_of_headD {buf : List Char} {s : Nat} {r : List Char} (h : At buf s r) :
    peek buf s = r.headD NUL := by
  have := h.peek_at 0
  rw [Nat.add_zero] at this
  rw [this]
  cases r <;> simp

theorem parse_scheme_spec (t : List Char) (ht : NUL ∉ t) :
    At (parse_scheme (t ++ [NUL])).2.1 (parse_scheme (t ++ [NUL])).2.2 (after_scheme t) ∧
    (match scheme_text t with
      | some S => (parse_scheme (t ++ [NUL])).1 = some 0 ∧
          Sealed (parse_scheme (t ++ [NUL])).2.1 0 S ∧
          S.length < (parse_scheme (t ++ [NUL])).2.2
      | none => (parse_scheme (t ++ [NUL])).1 = none) := by
  have h0 : At (t ++ [NUL]) 0 t := ⟨ht, [], rfl, rfl⟩
  have hsk := h0.skip_eq _iri_isgendelim
  have hpk := h0.peek_at (seg _iri_isgendelim t).length
  rw [Nat.zero_add] at hsk hpk
  have hsr := seg_append_rest _iri_isgendelim t
  have hsg := not_mem_seg t _iri_isgendelim ht
  have hrs := not_mem_rest t _iri_isgendelim ht
  have hpk2 : peek (t ++ [NUL]) (seg _iri_isgendelim t).length
      = (rest _iri_isgendelim t).headD NUL := by
    rw [hpk, show t ++ [NUL] = seg _iri_isgendelim t ++ rest _iri_isgendelim t ++ [NUL] from by
      rw [hsr], getD_mid]
  by_cases hcol : (rest _iri_isgendelim t).head? = some ':'
  · obtain ⟨r1, hr1⟩ : ∃ r1, rest _iri_isgendelim t = ':' :: r1 := by
      cases hq : rest _iri_isgendelim t with
      | nil => simp [hq] at hcol
      | cons x xs => simp [hq] at hcol; exact ⟨xs, by rw [hcol]⟩
    have hpoke : poke (t ++ [NUL]) (seg _iri_isgendelim t).length NUL
        = seg _iri_isgendelim t ++ NUL :: (r1 ++ [NUL]) := by
      rw [poke, show t ++ [NUL] = seg _iri_isgendelim t ++ ':' :: r1 ++ [NUL] from by
        rw [← hr1, hsr], set_mid]
    have hc : peek (t ++ [NUL]) (seg _iri_isgendelim t).length = ':' := by
      rw [hpk2, hr1]; rfl
    have hr1n : NUL ∉ r1 := by
      intro hm
      apply hrs
      rw [hr1]
      exact List.mem_cons_of_mem _ hm
    simp only [parse_scheme, hsk, hc, if_true, hpoke, after_scheme, scheme_text, hcol, hr1,
      List.tail_cons]
    refine ⟨⟨hr1n, seg _iri_isgendelim t ++ [NUL], by simp, by simp⟩,
      trivial, ⟨hsg, [], r1 ++ [NUL], rfl, rfl⟩, by omega⟩
  · have hc : ¬ peek (t ++ [NUL]) (seg _iri_isgendelim t).length = ':' := by
      rw [hpk2]
      intro e
      apply hcol
      cases hq : rest _iri_isgendelim t with
      | nil => rw [hq] at e; exact absurd e (by decide)
      | cons x xs => rw [hq] at e; simp at e; simp [e]
    simp only [parse_scheme, hsk, hc, if_false, after_scheme, scheme_text, hcol]
    exact ⟨h0, trivial⟩

theorem parse_slashes_spec {buf : List Char} {s : Nat} {r : List Char} (h : At buf s r) :
    At buf (parse_slashes buf s) (after_slashes r) ∧ s ≤ parse_slashes buf s := by
  have h0 := h.peek_at 0
  have h1 := h.peek_at 1
  rw [Nat.add_zero] at h0
  obtain ⟨hr, A, rfl, rfl⟩ := h
  unfold parse_slashes
  rw [h0, h1]
  match r, hr with
  | [], hr => simp [after_slashes, At, NUL]
  | [x], hr =>
    have hx : ¬ (x = '/' ∧ NUL = '/') := fun e => absurd e.2 (by decide)
    simp only [List.singleton_append, List.getD_cons_zero, List.getD_cons_succ, hx, if_false,
      le_refl, and_true]
    refine ⟨?_, A, ?_, rfl⟩
    · unfold after_slashes; split <;> simp_all
    · unfold after_slashes; split <;> simp_all
  | x :: y :: r2, hr =>
    by_cases hxy : x = '/' ∧ y = '/'
    · obtain ⟨rfl, rfl⟩ := hxy
      simp only [List.cons_append, List.getD_cons_zero, List.getD_cons_succ, and_self, if_true,
        after_slashes]
      refine ⟨⟨?_, A ++ ['/', '/'], by simp, by simp⟩, by omega⟩
      intro hm
      exact hr (List.mem_cons_of_mem _ (List.mem_cons_of_mem _ hm))
    · simp only [List.cons_append, List.getD_cons_zero, List.getD_cons_succ, hxy, if_false,
        le_refl, and_true]
      have : after_slashes (x :: y :: r2) = x :: y :: r2 := by
        unfold after_slashes
        split
        · rename_i heq
          simp at heq
          exact absurd ⟨heq.1, heq.2.1⟩ hxy
        · rfl
      rw [this]
      exact ⟨hr, A, by simp, rfl⟩

theorem eq_nil_of_headD {l : List Char} (h : NUL ∉ l) (e : l.headD NUL = NUL) : l = [] := by
  cases l with
  | nil => rfl
  | cons x xs => simp at e; simp [e] at h

theorem not_mem_tail {l : List Char} (h : NUL ∉ l) : NUL ∉ l.tail :=
  fun hm => h (List.mem_of_mem_tail hm)

theorem not_mem_field_rest (mark : Char) (stop : Char → Bool) {l : List Char} (h : NUL ∉ l) :
    NUL ∉ field_rest mark stop l := by
  unfold field_rest
  split
  · exact not_mem_rest _ _ (not_mem_tail h)
  · exact h

theorem field_text_some {mark : Char} {stop : Char → Bool} {l F : List Char}
    (h : field_text mark stop l = some F) : l ≠ [] := by
  intro e
  simp [field_text, e] at h

theorem rem_path_head (r : List Char) (x : Char) (xs : List Char) (h : rem_path r = x :: xs) :
    x = '?' ∨ x = '#' := by
  unfold rem_path field_rest at h
  split at h
  · have := rest_head_stop _ _ _ _ h
    simpa [is_path_end] using this
  · rename_i hne
    have := rest_head_stop _ _ _ _ h
    have h1 : rest is_auth_end r = x :: xs := h
    have h2 : ¬ (rest is_auth_end r).head? = some '/' := hne
    rw [h1] at h2
    simp [is_auth_end] at this
    simp at h2
    tauto

theorem rem_query_head (r : List Char) (x : Char) (xs : List Char) (h : rem_query r = x :: xs) :
    x = '#' := by
  unfold rem_query field_rest at h
  split at h
  · have := rest_head_stop _ _ _ _ h
    simpa [is_query_end] using this
  · rename_i hne
    have := rem_path_head r x xs h
    rw [h] at hne
    simp at hne
    tauto

theorem seg_no_end (l : List Char) : seg is_no_end l = l := by
  simp [seg, is_no_end]

theorem scan_rest_spec (uri : List Char) (scheme : Option Nat) {buf : List Char} {a : Nat}
    {r : List Char} (h : At buf a r) :
    (scan_rest uri scheme buf a).authority = a ∧
    (scan_rest uri scheme buf a).iri.scheme = scheme ∧
    (scan_rest uri scheme buf a).iri.uri = uri ∧
    Sealed (scan_rest uri scheme buf a).iri.mem a (auth_text r) ∧
    Holds (scan_rest uri scheme buf a).iri.mem (scan_rest uri scheme buf a).iri.path
      (path_text r) (a + (auth_text r).length) ∧
    Holds (scan_rest uri scheme buf a).iri.mem (scan_rest uri scheme buf a).iri.query
      (query_text r) (a + (auth_text r).length) ∧
    Holds (scan_rest uri scheme buf a).iri.mem (scan_rest uri scheme buf a).iri.fragment
      (fragment_text r) (a + (auth_text r).length) ∧
    (∀ o F, Sealed buf o F → o + F.length < a → Sealed (scan_rest uri scheme buf a).iri.mem o F) ∧
    peek (scan_rest uri scheme buf a).iri.mem (scan_rest uri scheme buf a).s = NUL := by
  have hr := h.1
  obtain ⟨c1, c2, c3, c4, c5, c6⟩ := skip_cut_spec is_auth_end h
  have hra : NUL ∉ rem_auth r := not_mem_rest _ _ hr
  obtain ⟨p1, p2, p3, p4, p5, p6⟩ :=
    scan_field_spec '/' is_path_end (by decide) hra c1 c2
  have hrp : NUL ∉ rem_path r := not_mem_field_rest _ _ hra
  obtain ⟨q1, q2, q3, q4, q5, q6⟩ :=
    scan_field_spec '?' is_query_end (by decide) hrp p1 p2
  have hrq : NUL ∉ rem_query r := not_mem_field_rest _ _ hrp
  generalize hA : cut buf (skip is_auth_end buf a) = A at *
  generalize hP : scan_field '/' is_path_end A.1 A.2.1 A.2.2 = P at *
  generalize hQ : scan_field '?' is_query_end P.2.1 P.2.2.1 P.2.2.2 = Q at *
  replace c1 : A.1 = (rem_auth r).headD NUL := c1
  replace c3 : Sealed A.2.1 a (auth_text r) := c3
  replace c4 : A.1 = NUL ∨ a + (auth_text r).length < A.2.2 := c4
  replace c6 : a + (auth_text r).length ≤ A.2.2 := c6
  replace p1 : P.2.1 = (rem_path r).headD NUL := p1
  replace p3 : (match path_text r with
      | some F => P.1 = some A.2.2 ∧ Sealed P.2.2.1 A.2.2 F ∧
          (P.2.1 = NUL ∨ A.2.2 + F.length < P.2.2.2)
      | none => P.1 = none) := p3
  replace q1 : Q.2.1 = (rem_query r).headD NUL := q1
  replace q2 : At Q.2.2.1 Q.2.2.2 (rem_query r).tail := q2
  replace q3 : (match query_text r with
      | some F => Q.1 = some P.2.2.2 ∧ Sealed Q.2.2.1 P.2.2.2 F ∧
          (Q.2.1 = NUL ∨ P.2.2.2 + F.length < Q.2.2.2)
      | none => Q.1 = none) := q3
  have hsc : scan_rest uri scheme buf a =
      { iri := { mem := Q.2.2.1, uri := uri, scheme := scheme, userinfo := none, host := none,
                 port := none, path := P.1, query := Q.1,
                 fragment := (if Q.2.1 = '#' then (some Q.2.2.2, skip is_no_end Q.2.2.1 Q.2.2.2)
                   else (none, Q.2.2.2)).1 }
        authority := a
        s := (if Q.2.1 = '#' then (some Q.2.2.2, skip is_no_end Q.2.2.1 Q.2.2.2)
                   else (none, Q.2.2.2)).2 } := by
    simp only [scan_rest, hA, hP, hQ]
  rw [hsc]
  simp only
  -- the scan position stays above the authority once a delimiter was met
  have lo1 : A.1 ≠ NUL → a + (auth_text r).length < A.2.2 := by
    intro hne
    rcases c4 with c4 | c4
    · exact absurd c4 hne
    · exact c4
  have lo2 : P.2.1 ≠ NUL → a + (auth_text r).length < P.2.2.2 := by
    intro hne
    have : A.1 ≠ NUL := fun e => hne (p6 e)
    have := lo1 this
    omega
  have lo3 : Q.2.1 ≠ NUL → a + (auth_text r).length < Q.2.2.2 := by
    intro hne
    have : P.2.1 ≠ NUL := fun e => hne (q6 e)
    have := lo2 this
    omega
  refine ⟨trivial, trivial, trivial, ?_, ?_, ?_, ?_, ?_, ?_⟩
  · -- authority
    apply q4
    · apply p4 _ _ c3
      rcases c4 with c4 | c4
      · exact Or.inl c4
      · exact Or.inr c4
    · by_cases e : P.2.1 = NUL
      · exact Or.inl e
      · exact Or.inr (lo2 e)
  · -- path
    unfold Holds
    cases hpt : path_text r with
    | none =>
      rw [hpt] at p3
      exact p3
    | some F =>
      rw [hpt] at p3
      obtain ⟨e1, e2, e3⟩ := p3
      have hne : A.1 ≠ NUL := by
        intro e
        rw [c1] at e
        exact field_text_some hpt (eq_nil_of_headD hra e)
      exact ⟨A.2.2, e1, q4 _ _ e2 e3, lo1 hne⟩
  · -- query
    unfold Holds
    cases hqt : query_text r with
    | none =>
      rw [hqt] at q3
      exact q3
    | some F =>
      rw [hqt] at q3
      obtain ⟨e1, e2, e3⟩ := q3
      have hne : P.2.1 ≠ NUL := by
        intro e
        rw [p1] at e
        exact field_text_some hqt (eq_nil_of_headD hrp e)
      exact ⟨P.2.2.2, e1, e2, lo2 hne⟩
  · -- fragment
    unfold Holds fragment_text
    have hcq : Q.2.1 = '#' ↔ (rem_query r).head? = some '#' := by
      rw [q1]
      cases rem_query r with
      | nil => simp only [List.headD_nil, List.head?_nil]; decide
      | cons x xs => simp
    by_cases hf : Q.2.1 = '#'
    · have hne : Q.2.1 ≠ NUL := by rw [hf]; decide
      simp only [hf, if_true, hcq.1 hf]
      exact ⟨Q.2.2.2, rfl, q2.sealed, lo3 hne⟩
    · have hf2 : ¬ (rem_query r).head? = some '#' := fun e => hf (hcq.2 e)
      simp only [hf, if_false, hf2]
  · -- earlier texts
    intro o F hF ho
    apply q4
    · apply p4 _ _ (c5 o F hF ho)
      exact Or.inr (by omega)
    · exact Or.inr (by omega)
  · -- the scan ends at the NUL
    by_cases hf : Q.2.1 = '#'
    · simp only [hf, if_true]
      rw [q2.skip_eq, seg_no_end]
      have := q2.peek_at (rem_query r).tail.length
      rw [this]
      simp
    · simp only [hf, if_false]
      rw [q2.nil_of_headD]
      have hnil : rem_query r = [] := by
        cases hq : rem_query r with
        | nil => rfl
        | cons x xs =>
          exfalso
          apply hf
          rw [q1, hq, rem_query_head r x xs hq]
          rfl
      rw [hnil]
      rfl

/-! ## The authority on a laid out block -/

theorem first_at_sealed (c : Char) (hc : c ≠ NUL) (F Z : List Char) (hF : NUL ∉ F) :
    first_at c (F ++ NUL :: Z) =
      if rest (fun x => x = c) F = [] then none else some (seg (fun x => x = c) F).length := by
  induction F with
  | nil => simp [first_at, rest, seg, hc.symm]
  | cons x xs ih =>
    simp only [List.mem_cons, not_or] at hF
    have hx : x ≠ NUL := fun e => hF.1 e.symm
    by_cases hxc : x = c
    · simp [first_at, rest, seg, hxc]
    · have e1 : rest (fun x => x = c) (x :: xs) = rest (fun x => x = c) xs := by
        simp [rest, hxc]
      have e2 : seg (fun x => x = c) (x :: xs) = x :: seg (fun x => x = c) xs := by
        simp [seg, hxc]
      rw [e1, e2, List.cons_append, first_at, if_neg hxc, if_neg hx, ih hF.2]
      split <;> simp

theorem last_at_sealed (c : Char) (F Z : List Char) (hF : NUL ∉ F) :
    last_at c (F ++ NUL :: Z) = last_at c F := by
  induction F with
  | nil => simp [last_at]
  | cons x xs ih =>
    simp only [List.mem_cons, not_or] at hF
    have hx : x ≠ NUL := fun e => hF.1 e.symm
    simp [last_at, hx, ih hF.2]

theorem last_at_lt (c : Char) (F : List Char) (p : Nat) (h : last_at c F = some p) :
    p < F.length := by
  induction F generalizing p with
  | nil => simp [last_at] at h
  | cons x xs ih =>
    simp only [last_at] at h
    split at h
    · exact absurd h (by simp)
    · split at h
      · rename_i i hi
        have := ih i hi
        simp at h
        simp
        omega
      · split at h
        · simp at h; simp [← h]
        · exact absurd h (by simp)

theorem host_len_le (hp : List Char) : host_len hp ≤ hp.length := by
  unfold host_len
  split
  · split
    · rename_i p hp2
      have := last_at_lt _ _ _ hp2
      omega
    · exact le_refl _
  · exact (List.takeWhile_sublist _).length_le

theorem peek_layout (A R : List Char) (k : Nat) :
    peek (A ++ R) (A.length + k) = R.getD k NUL := by
  rw [peek, List.getD_append_right _ _ _ _ (by omega)]
  simp

theorem authority_userinfo_layout (A auth Z : List Char) (hF : NUL ∉ auth) :
    authority_userinfo (A ++ (auth ++ NUL :: Z)) A.length =
      match rest is_at auth with
      | [] => (none, A ++ (auth ++ NUL :: Z), A.length)
      | _ :: hp => (some A.length, A ++ (seg is_at auth ++ NUL :: (hp ++ NUL :: Z)),
          A.length + (seg is_at auth).length + 1) := by
  have hfa := first_at_sealed '@' (by decide) auth Z hF
  have hsr := seg_append_rest is_at auth
  change first_at '@' (auth ++ NUL :: Z) =
    if rest is_at auth = [] then none else some (seg is_at auth).length at hfa
  unfold authority_userinfo strchr
  rw [List.drop_left, hfa]
  cases hr : rest is_at auth with
  | nil => simp
  | cons x hp =>
    rw [hr] at hsr
    simp only [reduceCtorEq, if_false, Option.map_some']
    have : poke (A ++ (auth ++ NUL :: Z)) (A.length + (seg is_at auth).length) NUL
        = A ++ (seg is_at auth ++ NUL :: (hp ++ NUL :: Z)) := by
      rw [poke, List.set_append_right _ _ (by omega),
        show auth ++ NUL :: Z = seg is_at auth ++ x :: hp ++ NUL :: Z from by rw [hsr]]
      simp only [Nat.add_sub_cancel_left]
      rw [set_mid]
    rw [this]

theorem authority_host_end_layout (A hp Z : List Char) (hF : NUL ∉ hp) :
    authority_host_end (A ++ (hp ++ NUL :: Z)) A.length = A.length + host_len hp := by
  have hpk := peek_layout A (hp ++ NUL :: Z) 0
  rw [Nat.add_zero] at hpk
  have hbr : peek (A ++ (hp ++ NUL :: Z)) A.length = '[' ↔ hp.head? = some '[' := by
    rw [hpk]
    cases hp with
    | nil => simp only [List.nil_append, List.getD_cons_zero, List.head?_nil]; decide
    | cons x xs => simp
  unfold authority_host_end host_len strrchr skip
  rw [List.drop_left, last_at_sealed _ _ _ hF, run_append _ _ _ hF, run_append _ _ _ hF,
    seg_no_end]
  by_cases hb : hp.head? = some '['
  · rw [if_pos (hbr.2 hb), if_pos hb]
    cases last_at ']' hp with
    | none => rfl
    | some p => simp only [Option.map_some']; omega
  · rw [if_neg (fun e => hb (hbr.1 e)), if_neg hb]

theorem host_port_layout (A H Y Z : List Char) (hH : NUL ∉ H) (hY : NUL ∉ Y) :
    Sealed (poke (A ++ (H ++ Y ++ NUL :: Z)) (A.length + H.length) NUL) A.length H ∧
    Holds (poke (A ++ (H ++ Y ++ NUL :: Z)) (A.length + H.length) NUL)
      (authority_port (A ++ (H ++ Y ++ NUL :: Z)) (A.length + H.length)) (port_of Y)
      (A.length + H.length) := by
  have hp0 : peek (A ++ (H ++ Y ++ NUL :: Z)) (A.length + H.length) = (Y ++ NUL :: Z).getD 0 NUL := by
    have := peek_layout (A ++ H) (Y ++ NUL :: Z) 0
    simpa using this
  have hp1 : peek (A ++ (H ++ Y ++ NUL :: Z)) (A.length + H.length + 1)
      = (Y ++ NUL :: Z).getD 1 NUL := by
    have := peek_layout (A ++ H) (Y ++ NUL :: Z) 1
    simpa [Nat.add_assoc] using this
  have hpoke : ∀ W : List Char, ∀ x : Char,
      poke (A ++ (H ++ (x :: W))) (A.length + H.length) NUL = A ++ (H ++ NUL :: W) := by
    intro W x
    rw [poke, List.set_append_right _ _ (by omega), Nat.add_sub_cancel_left,
      List.set_append_right _ _ (le_refl _)]
    simp
  unfold authority_port
  rw [hp0, hp1]
  match Y, hY with
  | [], _ =>
    have e := hpoke Z NUL
    simp only [List.append_nil, List.nil_append] at e ⊢
    rw [e]
    refine ⟨⟨hH, A, Z, rfl, rfl⟩, ?_⟩
    simp only [List.getD_cons_zero, Holds, port_of]
    rw [if_neg (by decide)]
  | [y], hY =>
    have e := hpoke (NUL :: Z) y
    simp only [List.append_assoc, List.singleton_append] at e ⊢
    rw [e]
    refine ⟨⟨hH, A, _, rfl, rfl⟩, ?_⟩
    simp only [List.getD_cons_zero, List.getD_cons_succ, ne_eq, not_true_eq_false, if_false,
      ite_self]
    unfold Holds port_of
    split <;> simp_all
  | y :: c :: P, hY =>
    have e := hpoke (c :: P ++ NUL :: Z) y
    simp only [List.append_assoc, List.cons_append] at e ⊢
    rw [e]
    refine ⟨⟨hH, A, _, rfl, rfl⟩, ?_⟩
    have hc : c ≠ NUL := by
      intro e2
      apply hY
      simp [e2]
    have hP : NUL ∉ c :: P := fun hm => hY (List.mem_cons_of_mem _ hm)
    simp only [List.getD_cons_zero, List.getD_cons_succ, ne_eq, hc, not_false_eq_true, if_true]
    by_cases hy : y = ':'
    · subst hy
      simp only [if_true, Holds, port_of]
      refine ⟨_, rfl, ⟨hP, A ++ (H ++ [NUL]), Z, by simp, by simp; omega⟩, by omega⟩
    · have hnone : port_of (y :: c :: P) = none := by
        unfold port_of
        split
        · rename_i heq
          injection heq with h1 h2
          exact absurd h1 hy
        · rfl
      simp only [hy, if_false, hnone, Holds]

theorem host_stage (A hp Z : List Char) (hF : NUL ∉ hp) :
    Sealed (poke (A ++ (hp ++ NUL :: Z)) (A.length + host_len hp) NUL) A.length (host_text hp) ∧
    Holds (poke (A ++ (hp ++ NUL :: Z)) (A.length + host_len hp) NUL)
      (authority_port (A ++ (hp ++ NUL :: Z)) (A.length + host_len hp)) (port_text hp)
      (A.length + host_len hp) := by
  have hle := host_len_le hp
  have hH : NUL ∉ hp.take (host_len hp) := fun hm => hF (List.mem_of_mem_take hm)
  have hY : NUL ∉ hp.drop (host_len hp) := fun hm => hF (List.mem_of_mem_drop hm)
  have := host_port_layout A (hp.take (host_len hp)) (hp.drop (host_len hp)) Z hH hY
  rw [List.take_append_drop, List.length_take, min_eq_left hle] at this
  exact this

theorem Holds.text_eq (iri : IRI) {ptr : Option Nat} {txt : Option (List Char)} {lo : Nat}
    (h : Holds iri.mem ptr txt lo) : iri.text ptr = txt := by
  unfold Holds at h
  cases txt with
  | none => simp [IRI.text, h]
  | some F =>
    obtain ⟨o, rfl, hs, _⟩ := h
    simp [IRI.text, hs.cstr_eq]

theorem iri_authority_spec (st : Scanned) {auth : List Char}
    (hs : Sealed st.iri.mem st.authority auth) (hne : auth ≠ []) :
    (iri_authority st).scheme = st.iri.scheme ∧
    (iri_authority st).path = st.iri.path ∧
    (iri_authority st).query = st.iri.query ∧
    (iri_authority st).fragment = st.iri.fragment ∧
    (iri_authority st).text (iri_authority st).userinfo = user_text auth ∧
    (iri_authority st).text (iri_authority st).host = some (host_text (host_part auth)) ∧
    (iri_authority st).text (iri_authority st).port = port_text (host_part auth) ∧
    (∀ o F, Sealed st.iri.mem o F →
      (o + F.length < st.authority ∨ st.authority + auth.length < o) →
      Sealed (iri_authority st).mem o F) := by
  obtain ⟨hF, A, Z, hmem, ha⟩ := hs
  have hpk : peek st.iri.mem st.authority ≠ NUL := by
    have := peek_layout A (auth ++ NUL :: Z) 0
    rw [Nat.add_zero, ← hmem, ha] at this
    rw [this]
    cases auth with
    | nil => exact absurd rfl hne
    | cons x xs =>
      simp only [List.cons_append, List.getD_cons_zero]
      intro e
      apply hF
      simp [e]
  have hu := authority_userinfo_layout A auth Z hF
  rw [← hmem, ha] at hu
  have hsr := seg_append_rest is_at auth
  have hdef : iri_authority st =
      { st.iri with
        mem := poke (authority_userinfo st.iri.mem st.authority).2.1
          (authority_host_end (authority_userinfo st.iri.mem st.authority).2.1
            (authority_userinfo st.iri.mem st.authority).2.2) NUL
        userinfo := (authority_userinfo st.iri.mem st.authority).1
        host := some (authority_userinfo st.iri.mem st.authority).2.2
        port := authority_port (authority_userinfo st.iri.mem st.authority).2.1
          (authority_host_end (authority_userinfo st.iri.mem st.authority).2.1
            (authority_userinfo st.iri.mem st.authority).2.2) } := by
    simp only [iri_authority, hpk, ne_eq, not_false_eq_true, if_true]
  rw [hdef]
  refine ⟨rfl, rfl, rfl, rfl, ?_⟩
  simp only [IRI.text]
  cases hr : rest is_at auth with
  | nil =>
    rw [hr] at hu
    simp only at hu
    rw [hu]
    simp only [user_text, host_part, hr]
    have hend := authority_host_end_layout A auth Z hF
    obtain ⟨h1, h2⟩ := host_stage A auth Z hF
    rw [← hmem] at hend h1 h2
    rw [← ha, hend]
    refine ⟨rfl, ?_, ?_, ?_⟩
    · simp [h1.cstr_eq]
    · exact Holds.text_eq { st.iri with mem := _ } h2
    · intro o F hS ho
      apply hS.after_poke
      have := host_len_le auth
      omega
  | cons x hp =>
    rw [hr] at hu hsr
    simp only at hu
    rw [hu]
    simp only [user_text, host_part, hr]
    have hhp : NUL ∉ hp := by
      intro hm
      apply hF
      rw [← hsr]
      simp [hm]
    have hU : NUL ∉ seg is_at auth := not_mem_seg _ _ hF
    have hlen : auth.length = (seg is_at auth).length + 1 + hp.length := by
      conv_lhs => rw [← hsr]
      simp
      omega
    have hend := authority_host_end_layout (A ++ (seg is_at auth ++ [NUL])) hp Z hhp
    obtain ⟨h1, h2⟩ := host_stage (A ++ (seg is_at auth ++ [NUL])) hp Z hhp
    have hlay : A ++ (seg is_at auth ++ NUL :: (hp ++ NUL :: Z))
        = A ++ (seg is_at auth ++ [NUL]) ++ (hp ++ NUL :: Z) := by simp
    have hA : (A ++ (seg is_at auth ++ [NUL])).length = A.length + (seg is_at auth).length + 1 := by
      simp
      omega
    rw [← hlay, hA] at hend h1 h2
    rw [← ha, hend]
    have hle := host_len_le hp
    have hpoke1 : A ++ (seg is_at auth ++ NUL :: (hp ++ NUL :: Z))
        = poke st.iri.mem (A.length + (seg is_at auth).length) NUL := by
      rw [hmem, poke, List.set_append_right _ _ (by omega), Nat.add_sub_cancel_left,
        show auth ++ NUL :: Z = seg is_at auth ++ x :: hp ++ NUL :: Z from by rw [hsr], set_mid]
    refine ⟨?_, ?_, ?_, ?_⟩
    · have hS : Sealed (A ++ (seg is_at auth ++ NUL :: (hp ++ NUL :: Z))) A.length (seg is_at auth) :=
        ⟨hU, A, _, rfl, rfl⟩
      have := hS.after_poke (A.length + (seg is_at auth).length + 1 + host_len hp) NUL
        (Or.inr (by omega))
      simp [this.cstr_eq]
    · simp [h1.cstr_eq]
    · exact Holds.text_eq { st.iri with mem := _ } h2
    · intro o F hS ho
      rw [hpoke1]
      apply Sealed.after_poke
      · apply hS.after_poke
        omega
      · omega

/-! ## The whole of `iri_parse` -/

theorem Holds.frame {mem mem2 : List Char} {ptr : Option Nat} {txt : Option (List Char)}
    {lo : Nat} (h : Holds mem ptr txt lo)
    (hf : ∀ o F, Sealed mem o F → lo < o → Sealed mem2 o F) : Holds mem2 ptr txt lo := by
  unfold Holds at h ⊢
  cases txt with
  | none => exact h
  | some F =>
    obtain ⟨o, e, hs, hlo⟩ := h
    exact ⟨o, e, hf o F hs hlo, hlo⟩

theorem iri_scan_spec (t : List Char) :
    Sealed (iri_scan t).iri.mem (iri_scan t).authority
      (auth_text (after_slashes (after_scheme (clean t)))) ∧
    (match scheme_text (clean t) with
      | some S => (iri_scan t).iri.scheme = some 0 ∧ Sealed (iri_scan t).iri.mem 0 S ∧
          S.length < (iri_scan t).authority
      | none => (iri_scan t).iri.scheme = none) ∧
    Holds (iri_scan t).iri.mem (iri_scan t).iri.path
      (path_text (after_slashes (after_scheme (clean t))))
      ((iri_scan t).authority + (auth_text (after_slashes (after_scheme (clean t)))).length) ∧
    Holds (iri_scan t).iri.mem (iri_scan t).iri.query
      (query_text (after_slashes (after_scheme (clean t))))
      ((iri_scan t).authority + (auth_text (after_slashes (after_scheme (clean t)))).length) ∧
    Holds (iri_scan t).iri.mem (iri_scan t).iri.fragment
      (fragment_text (after_slashes (after_scheme (clean t))))
      ((iri_scan t).authority + (auth_text (after_slashes (after_scheme (clean t)))).length) ∧
    peek (iri_scan t).iri.mem (iri_scan t).s = NUL ∧
    (iri_scan t).iri.uri = clean t := by
  have hc : NUL ∉ clean t := not_mem_upto_nul _
  obtain ⟨s1, s2⟩ := parse_scheme_spec (clean t) hc
  obtain ⟨l1, l2⟩ := parse_slashes_spec s1
  obtain ⟨_, r1, r2, r3, r4, r5, r6, r7, r8⟩ :=
    scan_rest_spec (clean t) (parse_scheme (clean t ++ [NUL])).1 l1
  have hdef : iri_scan t = scan_rest (clean t) (parse_scheme (clean t ++ [NUL])).1
      (parse_scheme (clean t ++ [NUL])).2.1
      (parse_slashes (parse_scheme (clean t ++ [NUL])).2.1
        (parse_scheme (clean t ++ [NUL])).2.2) := rfl
  rw [hdef]
  generalize parse_scheme (clean t ++ [NUL]) = sc at *
  generalize hsl : parse_slashes sc.2.1 sc.2.2 = a at *
  have hauth : (scan_rest (clean t) sc.1 sc.2.1 a).authority = a := rfl
  rw [hauth]
  refine ⟨r3, ?_, r4, r5, r6, r8, r2⟩
  cases hst : scheme_text (clean t) with
  | none =>
    rw [hst] at s2
    simp only [r1]
    exact s2
  | some S =>
    rw [hst] at s2
    obtain ⟨e1, e2, e3⟩ := s2
    simp only [r1]
    exact ⟨e1, r7 0 S e2 (by omega), by omega⟩

theorem user_text_nil : user_text [] = none := rfl

theorem port_text_nil : port_text [] = none := rfl

theorem iri_parse_parts (t : List Char) : (iri_parse t).parts = parts_spec (clean t) := by
  obtain ⟨h1, h2, h3, h4, h5, h6, _⟩ := iri_scan_spec t
  have hscan_u : (iri_scan t).iri.userinfo = none := rfl
  have hscan_h : (iri_scan t).iri.host = none := rfl
  have hscan_p : (iri_scan t).iri.port = none := rfl
  generalize hr : after_slashes (after_scheme (clean t)) = r at *
  by_cases hne : auth_text r = []
  · -- no authority: nothing is decomposed
    have hpk : peek (iri_scan t).iri.mem (iri_scan t).authority = NUL := by
      rw [← cstr_eq_nil_iff, h1.cstr_eq, hne]
    have hid : iri_parse t = (iri_scan t).iri := by
      simp [iri_parse, iri_authority, hpk]
    rw [hid]
    simp only [IRI.parts, parts_spec, hr, hne, if_true, user_text_nil, host_part, rest,
      List.dropWhile_nil, port_text_nil, Holds.text_eq _ h3, Holds.text_eq _ h4, Holds.text_eq _ h5,
      hscan_u, hscan_h, hscan_p]
    simp only [IRI.text, Option.map_none', Parts.mk.injEq, and_self, and_true]
    cases hst : scheme_text (clean t) with
    | none => rw [hst] at h2; simp [h2]
    | some S => rw [hst] at h2; simp [h2.1, h2.2.1.cstr_eq]
  · obtain ⟨a1, a2, a3, a4, a5, a6, a7, a8⟩ := iri_authority_spec (iri_scan t) h1 hne
    have f3 : Holds (iri_parse t).mem (iri_scan t).iri.path (path_text r) _ :=
      h3.frame (fun o F hs hlo => a8 o F hs (Or.inr hlo))
    have f4 : Holds (iri_parse t).mem (iri_scan t).iri.query (query_text r) _ :=
      h4.frame (fun o F hs hlo => a8 o F hs (Or.inr hlo))
    have f5 : Holds (iri_parse t).mem (iri_scan t).iri.fragment (fragment_text r) _ :=
      h5.frame (fun o F hs hlo => a8 o F hs (Or.inr hlo))
    have e3 := Holds.text_eq _ f3
    have e4 := Holds.text_eq _ f4
    have e5 := Holds.text_eq _ f5
    change (iri_parse t).scheme = _ at a1
    change (iri_parse t).path = _ at a2
    change (iri_parse t).query = _ at a3
    change (iri_parse t).fragment = _ at a4
    change (iri_parse t).text (iri_parse t).userinfo = _ at a5
    change (iri_parse t).text (iri_parse t).host = _ at a6
    change (iri_parse t).text (iri_parse t).port = _ at a7
    simp only [IRI.parts, parts_spec, hr, hne, if_false, a5, a6, a7, a2, a3, a4, e3, e4, e5]
    simp only [Parts.mk.injEq, and_true]
    rw [a1]
    cases hst : scheme_text (clean t) with
    | none => rw [hst] at h2; simp [IRI.text, h2]
    | some S =>
      rw [hst] at h2
      have := a8 0 S h2.2.1 (Or.inl (by omega))
      simp only [IRI.text, h2.1, Option.map_some']
      rw [show (iri_authority (iri_scan t)).mem = (iri_parse t).mem from rfl] at this
      rw [this.cstr_eq]

/-! ## Splitting texts -/

theorem seg_rest_split (stop : Char → Bool) (pre : List Char) (x : Char) (post : List Char)
    (hpre : ∀ c ∈ pre, stop c = false) (hx : stop x = true) :
    seg stop (pre ++ x :: post) = pre ∧ rest stop (pre ++ x :: post) = x :: post := by
  have h1 : ∀ c ∈ pre, (fun c => !stop c) c = true := by
    intro c hc
    simp [hpre c hc]
  constructor
  · rw [seg, List.takeWhile_append_of_pos h1]
    simp [hx]
  · rw [rest, List.dropWhile_append_of_pos h1]
    simp [hx]

theorem seg_rest_all (stop : Char → Bool) (l : List Char) (h : ∀ c ∈ l, stop c = false) :
    seg stop l = l ∧ rest stop l = [] := by
  have h1 : ∀ c ∈ l, (fun c => !stop c) c = true := by
    intro c hc
    simp [h c hc]
  exact ⟨List.takeWhile_eq_self_iff.2 h1, List.dropWhile_eq_nil_iff.2 h1⟩

theorem last_at_none (c : Char) (Y : List Char) (h : c ∉ Y) : last_at c Y = none := by
  induction Y with
  | nil => rfl
  | cons y ys ih =>
    simp only [List.mem_cons, not_or] at h
    have hy : ¬ y = c := fun e => h.1 e.symm
    simp only [last_at, ih h.2, hy, if_false]
    split <;> rfl

theorem last_at_split (c : Char) (hc : c ≠ NUL) (X Y : List Char) (hX : NUL ∉ X)
    (hcY : c ∉ Y) : last_at c (X ++ c :: Y) = some X.length := by
  induction X with
  | nil => simp [last_at, hc, last_at_none c Y hcY]
  | cons x xs ih =>
    simp only [List.mem_cons, not_or] at hX
    have hx : x ≠ NUL := fun e => hX.1 e.symm
    simp [last_at, hx, ih hX.2]

theorem authority_run_eq (t : List Char) :
    authority_run t = auth_text (after_slashes (after_scheme (clean t))) :=
  (iri_scan_spec t).1.cstr_eq

theorem not_mem_authority_run (t : List Char) : NUL ∉ authority_run t :=
  not_mem_upto_nul _

theorem parts_host (t : List Char) (h : authority_run t ≠ []) :
    (iri_parse t).parts.host = some (host_text (host_part (authority_run t))) := by
  rw [iri_parse_parts, authority_run_eq] at *
  simp [parts_spec, h]

theorem parts_port (t : List Char) :
    (iri_parse t).parts.port = port_text (host_part (authority_run t)) := by
  rw [iri_parse_parts, authority_run_eq]
  rfl

theorem parts_userinfo (t : List Char) :
    (iri_parse t).parts.userinfo = user_text (authority_run t) := by
  rw [iri_parse_parts, authority_run_eq]
  rfl

/-! ## Joining the texts again -/

theorem field_join (mark : Char) (stop : Char → Bool) (rem : List Char) :
    (match field_text mark stop rem with | some F => mark :: F | none => [])
      ++ field_rest mark stop rem = rem := by
  unfold field_text field_rest
  by_cases h : rem.head? = some mark
  · simp only [h, if_true]
    cases rem with
    | nil => simp at h
    | cons x xs =>
      simp only [List.head?_cons, Option.some.injEq] at h
      subst h
      simp only [List.tail_cons, List.cons_append, seg_append_rest]
  · simp only [h, if_false, List.nil_append]

theorem fragment_join (r : List Char) :
    (match fragment_text r with | some F => '#' :: F | none => []) = rem_query r := by
  unfold fragment_text
  cases h : rem_query r with
  | nil => simp
  | cons x xs =>
    have := rem_query_head r x xs h
    subst this
    simp

theorem scheme_join (t : List Char) :
    (match scheme_text t with | some S => S ++ [':'] | none => []) ++ after_scheme t = t := by
  unfold scheme_text after_scheme
  by_cases h : (rest _iri_isgendelim t).head? = some ':'
  · simp only [h, if_true]
    have hj := seg_append_rest _iri_isgendelim t
    cases hr : rest _iri_isgendelim t with
    | nil => rw [hr] at h; simp at h
    | cons x xs =>
      rw [hr] at h hj
      simp only [List.head?_cons, Option.some.injEq] at h
      subst h
      simpa using hj
  · simp only [h, if_false, List.nil_append]

theorem after_slashes_cons (r : List Char) : after_slashes ('/' :: '/' :: r) = r := rfl

theorem after_slashes_self (t : List Char) (h : t.take 2 ≠ ['/', '/']) : after_slashes t = t := by
  unfold after_slashes
  split
  · exact absurd rfl h
  · rfl

theorem marker_join (t : List Char) (h : marker_ok t = true) :
    (match scheme_text t with | some S => S ++ [':', '/', '/'] | none => [])
      ++ after_slashes (after_scheme t) = t := by
  have hj := scheme_join t
  unfold marker_ok at h
  cases hs : scheme_text t with
  | none =>
    rw [hs] at h hj
    simp only [List.nil_append] at hj ⊢
    rw [hj]
    exact after_slashes_self t (by simpa using h)
  | some S =>
    rw [hs] at h hj
    simp only at h hj ⊢
    have h2 : (after_scheme t).take 2 = ['/', '/'] := by simpa using h
    obtain ⟨r, hr⟩ : ∃ r, after_scheme t = '/' :: '/' :: r := by
      match hq : after_scheme t with
      | [] => rw [hq] at h2; simp at h2
      | [x] => rw [hq] at h2; simp at h2
      | x :: y :: r =>
        rw [hq] at h2
        simp only [List.take_succ_cons, List.take_zero, List.cons.injEq, and_true] at h2
        exact ⟨r, by rw [h2.1, h2.2]⟩
    rw [hr] at hj ⊢
    rw [after_slashes_cons]
    simpa using hj

theorem user_join (auth : List Char) :
    (match user_text auth with | some U => U ++ ['@'] | none => []) ++ host_part auth = auth := by
  unfold user_text host_part
  have hj := seg_append_rest is_at auth
  cases hr : rest is_at auth with
  | nil => simp
  | cons x xs =>
    have hx := rest_head_stop _ _ _ _ hr
    have hx2 : x = '@' := by simpa [is_at] using hx
    subst hx2
    rw [hr] at hj
    simpa using hj

theorem port_join (hp : List Char) (h : port_ok hp = true) :
    host_text hp ++ (match port_text hp with | some P => ':' :: P | none => []) = hp := by
  have hj : host_text hp ++ after_host hp = hp := List.take_append_drop _ _
  unfold port_ok at h
  have hp2 : port_text hp = port_of (after_host hp) := rfl
  rw [hp2]
  generalize after_host hp = Y at *
  match Y, h with
  | [], _ => simpa [port_of] using hj
  | [y], h => simp [port_of] at h
  | y :: c :: P, h =>
    by_cases hy : y = ':'
    · subst hy
      simpa [port_of] using hj
    · exfalso
      have : port_of (y :: c :: P) = none := by
        unfold port_of
        split
        · rename_i heq
          injection heq with h1 h2
          exact absurd h1 hy
        · rfl
      simp [this] at h

theorem rest_join (r : List Char) :
    auth_text r
      ++ (match path_text r with | some F => '/' :: F | none => [])
      ++ (match query_text r with | some F => '?' :: F | none => [])
      ++ (match fragment_text r with | some F => '#' :: F | none => []) = r := by
  have h1 := seg_append_rest is_auth_end r
  have h2 := field_join '/' is_path_end (rem_auth r)
  have h3 := field_join '?' is_query_end (rem_path r)
  have h4 := fragment_join r
  change auth_text r ++ rem_auth r = r at h1
  change (match path_text r with | some F => '/' :: F | none => []) ++ rem_path r = rem_auth r at h2
  change (match query_text r with | some F => '?' :: F | none => []) ++ rem_query r
    = rem_path r at h3
  rw [h4, List.append_assoc, h3, List.append_assoc, h2, h1]

theorem clean_self (t : List Char) (hnul : NUL ∉ t) (hsp : t.dropWhile isspace = t) :
    clean t = t := by
  rw [clean, hsp, upto_nul_of_not_mem t hnul]

/-! ## Where the scan ends -/

theorem cut_length (buf : List Char) (s : Nat) : (cut buf s).2.1.length = buf.length := by
  simp only [cut]
  split <;> simp [poke]

theorem scan_field_length (mark : Char) (stop : Char → Bool) (c : Char) (buf : List Char)
    (s : Nat) : (scan_field mark stop c buf s).2.2.1.length = buf.length := by
  unfold scan_field
  split
  · exact cut_length _ _
  · rfl

theorem scan_rest_length (uri : List Char) (scheme : Option Nat) (buf : List Char) (a : Nat) :
    (scan_rest uri scheme buf a).iri.mem.length = buf.length := by
  simp only [scan_rest, scan_field_length, cut_length]

theorem parse_scheme_length (buf : List Char) : (parse_scheme buf).2.1.length = buf.length := by
  simp only [parse_scheme]
  split <;> simp [poke]

theorem iri_scan_length (t : List Char) :
    (iri_scan t).iri.mem.length = (clean t).length + 1 := by
  have : iri_scan t = scan_rest (clean t) (parse_scheme (clean t ++ [NUL])).1
      (parse_scheme (clean t ++ [NUL])).2.1
      (parse_slashes (parse_scheme (clean t ++ [NUL])).2.1
        (parse_scheme (clean t ++ [NUL])).2.2) := rfl
  rw [this, scan_rest_length, parse_scheme_length]
  simp

theorem At.length_eq {buf : List Char} {s : Nat} {r : List Char} (h : At buf s r) :
    buf.length = s + r.length + 1 := by
  obtain ⟨_, A, rfl, rfl⟩ := h
  simp
  omega

theorem scan_rest_end (uri : List Char) (scheme : Option Nat) {buf : List Char} {a : Nat}
    {r : List Char} (h : At buf a r) :
    (scan_rest uri scheme buf a).s + 1 = (scan_rest uri scheme buf a).iri.mem.length := by
  have hr := h.1
  obtain ⟨c1, c2, _, _, _, _⟩ := skip_cut_spec is_auth_end h
  have hra : NUL ∉ rem_auth r := not_mem_rest _ _ hr
  obtain ⟨p1, p2, _, _, _, _⟩ :=
    scan_field_spec '/' is_path_end (by decide) hra c1 c2
  have hrp : NUL ∉ rem_path r := not_mem_field_rest _ _ hra
  obtain ⟨q1, q2, _, _, _, _⟩ :=
    scan_field_spec '?' is_query_end (by decide) hrp p1 p2
  generalize hA : cut buf (skip is_auth_end buf a) = A at *
  generalize hP : scan_field '/' is_path_end A.1 A.2.1 A.2.2 = P at *
  generalize hQ : scan_field '?' is_query_end P.2.1 P.2.2.1 P.2.2.2 = Q at *
  replace q1 : Q.2.1 = (rem_query r).headD NUL := q1
  replace q2 : At Q.2.2.1 Q.2.2.2 (rem_query r).tail := q2
  have hsc : scan_rest uri scheme buf a =
      { iri := { mem := Q.2.2.1, uri := uri, scheme := scheme, userinfo := none, host := none,
                 port := none, path := P.1, query := Q.1,
                 fragment := (if Q.2.1 = '#' then (some Q.2.2.2, skip is_no_end Q.2.2.1 Q.2.2.2)
                   else (none, Q.2.2.2)).1 }
        authority := a
        s := (if Q.2.1 = '#' then (some Q.2.2.2, skip is_no_end Q.2.2.1 Q.2.2.2)
                   else (none, Q.2.2.2)).2 } := by
    simp only [scan_rest, hA, hP, hQ]
  rw [hsc]
  simp only
  have hlen := q2.length_eq
  by_cases hf : Q.2.1 = '#'
  · simp only [hf, if_true]
    rw [q2.skip_eq, seg_no_end, hlen]
  · simp only [hf, if_false]
    have hnil : rem_query r = [] := by
      cases hq : rem_query r with
      | nil => rfl
      | cons x xs =>
        exfalso
        apply hf
        rw [q1, hq, rem_query_head r x xs hq]
        rfl
    rw [hlen, hnil]
    rfl

theorem iri_scan_end (t : List Char) : (iri_scan t).s = (clean t).length := by
  have hc : NUL ∉ clean t := not_mem_upto_nul _
  obtain ⟨s1, _⟩ := parse_scheme_spec (clean t) hc
  obtain ⟨l1, _⟩ := parse_slashes_spec s1
  have h := scan_rest_end (clean t) (parse_scheme (clean t ++ [NUL])).1 l1
  have hl := iri_scan_length t
  have hdef : iri_scan t = scan_rest (clean t) (parse_scheme (clean t ++ [NUL])).1
      (parse_scheme (clean t ++ [NUL])).2.1
      (parse_slashes (parse_scheme (clean t ++ [NUL])).2.1
        (parse_scheme (clean t ++ [NUL])).2.2) := rfl
  rw [← hdef] at h
  omega

/-! ## Bytes of a scheme -/

theorem iri_ctype_eq_zero (c : Char) (h : c ∉ table_bytes) : iri_ctype c = 0 := by
  simp only [table_bytes, List.mem_cons, List.mem_singleton, not_or] at h
  have h19 : ¬ c = '=' ∧ True := ⟨by tauto, trivial⟩
  rw [iri_ctype, if_neg h.1, if_neg h.2.1, if_neg h.2.2.1, if_neg h.2.2.2.1, if_neg h.2.2.2.2.1, if_neg h.2.2.2.2.2.1, if_neg h.2.2.2.2.2.2.1, if_neg h.2.2.2.2.2.2.2.1, if_neg h.2.2.2.2.2.2.2.2.1, if_neg h.2.2.2.2.2.2.2.2.2.1, if_neg h.2.2.2.2.2.2.2.2.2.2.1, if_neg h.2.2.2.2.2.2.2.2.2.2.2.1, if_neg h.2.2.2.2.2.2.2.2.2.2.2.2.1, if_neg h.2.2.2.2.2.2.2.2.2.2.2.2.2.1, if_neg h.2.2.2.2.2.2.2.2.2.2.2.2.2.2.1, if_neg h.2.2.2.2.2.2.2.2.2.2.2.2.2.2.2.1, if_neg h.2.2.2.2.2.2.2.2.2.2.2.2.2.2.2.2.1, if_neg h.2.2.2.2.2.2.2.2.2.2.2.2.2.2.2.2.2.1, if_neg h19.1]

theorem isgendelim_mem (c : Char) (h : _iri_isgendelim c = true) : c ∈ table_bytes := by
  by_contra hn
  simp [_iri_isgendelim, iri_ctype_eq_zero c hn] at h

theorem isspace_mem (c : Char) (h : isspace c = true) :
    c ∈ [32, 9, 10, 11, 12, 13].map Char.ofNat := by
  simp only [isspace, decide_eq_true_eq] at h
  have hc := Char.ofNat_toNat c
  rcases h with h | ⟨h1, h2⟩
  · rw [h] at hc
    simp [← hc]
  · interval_cases hn : c.toNat <;> simp [← hc]

theorem scheme_byte_not_marked (c : Char) (h : is_scheme_byte c = true) :
    _iri_isgendelim c = false := by
  by_contra hne
  have hm := isgendelim_mem c (by simpa using hne)
  have hall : ∀ x ∈ table_bytes, is_scheme_byte x = false := by decide
  rw [hall c hm] at h
  exact absurd h (by simp)

theorem scheme_byte_not_space (c : Char) (h : is_scheme_byte c = true) : isspace c = false := by
  by_contra hne
  have hm := isspace_mem c (by simpa using hne)
  have hall : ∀ x ∈ [32, 9, 10, 11, 12, 13].map Char.ofNat, is_scheme_byte x = false := by decide
  rw [hall c hm] at h
  exact absurd h (by simp)

theorem scheme_byte_ne_nul (c : Char) (h : is_scheme_byte c = true) : c ≠ NUL := by
  intro e
  rw [e] at h
  exact absurd h (by decide)

/-! ## The passes of `_normalize_path` -/

theorem norm_main_succ (fuel : Nat) (buf : List Char) (p1 p2 : Nat) :
    norm_main (fuel + 1) buf p1 p2 =
      if peek buf p2 ≠ NUL then
        norm_main fuel (norm_step buf p1 p2).1 (norm_step buf p1 p2).2.1 (norm_step buf p1 p2).2.2
      else some (buf, p1) := by
  simp only [norm_main, norm_step]
  split_ifs <;> rfl

theorem At.cons_next {buf : List Char} {s : Nat} {x : Char} {r : List Char}
    (h : At buf s (x :: r)) : At buf (s + 1) r := by
  obtain ⟨hr, A, rfl, rfl⟩ := h
  exact ⟨fun hm => hr (List.mem_cons_of_mem _ hm), A ++ [x], by simp, by simp⟩

theorem At.drop_next {buf : List Char} {s : Nat} {r : List Char} (h : At buf s r) (k : Nat)
    (hk : k ≤ r.length) : At buf (s + k) (r.drop k) := by
  induction k generalizing s r with
  | zero => simpa using h
  | succ k ih =>
    cases r with
    | nil => simp at hk
    | cons x xs =>
      have := ih h.cons_next (by simpa using hk)
      simpa [Nat.add_assoc, Nat.add_comm 1 k] using this

theorem At.poke_below {buf : List Char} {s : Nat} {r : List Char} (h : At buf s r)
    (p : Nat) (x : Char) (hp : p < s) : At (poke buf p x) s r := by
  obtain ⟨hr, A, rfl, rfl⟩ := h
  refine ⟨hr, A.set p x, ?_, by simp⟩
  rw [poke, List.set_append_left _ _ hp]

theorem At.cstr_at {buf : List Char} {s : Nat} {r : List Char} (h : At buf s r) :
    cstr buf s = r := h.sealed.cstr_eq

theorem At.peek_cons {buf : List Char} {s : Nat} {x : Char} {r : List Char}
    (h : At buf s (x :: r)) : peek buf s = x := by
  rw [h.nil_of_headD]
  rfl

theorem At.peek_next {buf : List Char} {s : Nat} {x : Char} {r : List Char}
    (h : At buf s (x :: r)) : peek buf (s + 1) = r.headD NUL :=
  h.cons_next.nil_of_headD

theorem go_up_le (buf : List Char) (p1 : Nat) : go_up buf p1 ≤ p1 := by
  induction p1 with
  | zero => simp [go_up]
  | succ n ih =>
    simp only [go_up]
    split
    · omega
    · omega

theorem At.lt_of_peek {buf : List Char} {s : Nat} {r : List Char} (h : At buf s r) (i : Nat)
    (hp : peek buf (s + i) ≠ NUL) : i < r.length := by
  by_contra hn
  apply hp
  rw [h.peek_at]
  rcases Nat.lt_or_ge i (r.length + 1) with hlt | hge
  · have : i = r.length := by omega
    subst this
    rw [List.getD_append_right _ _ _ _ (le_refl _)]
    simp
  · exact List.getD_eq_default _ _ (by simpa using hge)

theorem norm_lead_total (fuel : Nat) : ∀ (buf : List Char) (p2 : Nat) (r : List Char),
    At buf p2 r → r.length < fuel →
    ∃ k, norm_lead fuel buf p2 = some (p2 + k) ∧ k ≤ r.length := by
  induction fuel with
  | zero => intro buf p2 r _ hf; exact absurd hf (by omega)
  | succ fuel ih =>
    intro buf p2 r h hf
    have hp0 := h.lt_of_peek 0
    have hp1 := h.lt_of_peek 1
    have hp2 := h.lt_of_peek 2
    rw [Nat.add_zero] at hp0
    have nd : ('.' : Char) ≠ NUL := by decide
    have ns : ('/' : Char) ≠ NUL := by decide
    simp only [norm_lead]
    split_ifs with c1 c2 c3 c4 c5
    · -- a slash
      have l0 := hp0 (c2 ▸ ns)
      obtain ⟨k, e, hk⟩ := ih buf (p2 + 1) (r.drop 1) (h.drop_next 1 (by omega))
        (by simp; omega)
      exact ⟨1 + k, by rw [e, Nat.add_assoc], by simp at hk; omega⟩
    · -- `./`
      have l1 := hp1 (c4 ▸ ns)
      obtain ⟨k, e, hk⟩ := ih buf (p2 + 2) (r.drop 2) (h.drop_next 2 (by omega))
        (by simp; omega)
      exact ⟨2 + k, by rw [e, Nat.add_assoc], by simp at hk; omega⟩
    · -- `../`
      have l2 := hp2 (c5.2 ▸ ns)
      obtain ⟨k, e, hk⟩ := ih buf (p2 + 3) (r.drop 3) (h.drop_next 3 (by omega))
        (by simp; omega)
      exact ⟨3 + k, by rw [e, Nat.add_assoc], by simp at hk; omega⟩
    · exact ⟨0, rfl, by omega⟩
    · exact ⟨0, rfl, by omega⟩
    · exact ⟨0, rfl, by omega⟩

theorem strncmp_len {buf : List Char} {s : Nat} {r : List Char} (h : At buf s r)
    (lit : List Char) (n : Nat) (hl : NUL ∉ lit) (hn : n ≤ lit.length)
    (hc : strncmp_eq buf s lit n = true) : n ≤ r.length := by
  simp only [strncmp_eq, decide_eq_true_eq, h.cstr_at, upto_nul_of_not_mem lit hl] at hc
  have := congrArg List.length hc
  simp only [List.length_take] at this
  omega

theorem strcmp_len {buf : List Char} {s : Nat} {r : List Char} (h : At buf s r)
    (lit : List Char) (hl : NUL ∉ lit) (hc : strcmp_eq buf s lit = true) : r = lit := by
  simpa only [strcmp_eq, decide_eq_true_eq, h.cstr_at, upto_nul_of_not_mem lit hl] using hc

theorem norm_step_cases {buf : List Char} {p2 : Nat} {r : List Char} (p1 : Nat)
    (h : At buf p2 r) (hne : peek buf p2 ≠ NUL) :
    ∃ k, 1 ≤ k ∧ k ≤ r.length ∧ (norm_step buf p1 p2).2.2 = p2 + k ∧
      (((norm_step buf p1 p2).1 = poke buf p1 (peek buf p2) ∧
          (norm_step buf p1 p2).2.1 = p1 + 1 ∧ k = 1 ∧
          (peek buf p2 = '/' → peek buf (p2 + 1) ≠ '/')) ∨
        ((norm_step buf p1 p2).1 = buf ∧ (norm_step buf p1 p2).2.1 = p1 ∧
          peek buf p2 = '/') ∨
        ((norm_step buf p1 p2).1 = buf ∧ (norm_step buf p1 p2).2.1 = go_up buf p1 ∧
          peek buf p2 = '/')) := by
  have l0 : 0 < r.length := h.lt_of_peek 0 (by simpa using hne)
  simp only [norm_step]
  split_ifs with c1 c2 c3 c4 c5 c6 c7 c8
  · have := strncmp_len h _ 4 (by decide) (by decide) c3
    exact ⟨3, by omega, by omega, rfl, Or.inr (Or.inr ⟨rfl, rfl, c1⟩)⟩
  · have := strcmp_len h _ (by decide) c4
    exact ⟨3, by omega, by rw [this]; decide, rfl, Or.inr (Or.inr ⟨rfl, rfl, c1⟩)⟩
  · have := strncmp_len h _ 3 (by decide) (by decide) c5
    exact ⟨2, by omega, by omega, rfl, Or.inr (Or.inl ⟨rfl, rfl, c1⟩)⟩
  · have := strcmp_len h _ (by decide) c6
    exact ⟨2, by omega, by rw [this]; decide, rfl, Or.inr (Or.inl ⟨rfl, rfl, c1⟩)⟩
  · refine ⟨1, by omega, by omega, rfl, Or.inl ⟨rfl, rfl, rfl, fun _ => ?_⟩⟩
    rw [c2]
    decide
  · exact ⟨1, by omega, by omega, rfl, Or.inr (Or.inl ⟨rfl, rfl, c1⟩)⟩
  · exact ⟨1, by omega, by omega, rfl, Or.inr (Or.inl ⟨rfl, rfl, c1⟩)⟩
  · exact ⟨1, by omega, by omega, rfl, Or.inl ⟨rfl, rfl, rfl, fun _ => c8⟩⟩
  · exact ⟨1, by omega, by omega, rfl, Or.inl ⟨rfl, rfl, rfl, fun e => absurd e c1⟩⟩

theorem go_up_last (buf : List Char) (p1 : Nat) (hc : NoSlashPair (buf.take p1)) :
    (buf.take (go_up buf p1)).getLast? ≠ some '/' := by
  induction p1 with
  | zero => simp [go_up]
  | succ n ih =>
    have hpre : NoSlashPair (buf.take n) := by
      have := List.Chain'.take hc n
      rwa [List.take_take, min_eq_left (Nat.le_succ n)] at this
    simp only [go_up]
    split
    · exact ih hpre
    · rename_i hs
      have hs2 : peek buf n = '/' := by simpa using hs
      intro hlast
      have hn : n < buf.length := by
        by_contra hge
        rw [peek, List.getD_eq_default _ _ (by omega)] at hs2
        exact absurd hs2 (by decide)
      have hx : buf[n]? = some '/' := by
        rw [peek, List.getD_eq_getElem?_getD] at hs2
        rw [List.getElem?_eq_getElem hn] at hs2 ⊢
        simpa using hs2
      rw [NoSlashPair, List.take_succ, hx] at hc
      have := (List.chain'_append.1 hc).2.2 '/' (by simpa using hlast) '/' (by simp)
      exact this ⟨rfl, rfl⟩

theorem take_poke (buf : List Char) (p : Nat) (x : Char) (hp : p < buf.length) :
    (poke buf p x).take (p + 1) = buf.take p ++ [x] := by
  rw [poke, List.set_eq_take_cons_drop _ hp]
  rw [show p + 1 = (buf.take p).length + 1 from by simp [Nat.min_eq_left (le_of_lt hp)]]
  rw [List.take_append]
  simp

theorem norm_step_inv {buf : List Char} {p1 p2 : Nat} {r : List Char}
    (h : NormInv buf p1 p2 r) (hne : peek buf p2 ≠ NUL) :
    ∃ k, 1 ≤ k ∧ k ≤ r.length ∧
      NormInv (norm_step buf p1 p2).1 (norm_step buf p1 p2).2.1 (norm_step buf p1 p2).2.2
        (r.drop k) ∧
      (norm_step buf p1 p2).1.length = buf.length := by
  obtain ⟨hat, hle, hnul, hch, hlast⟩ := h
  obtain ⟨k, k1, k2, e3, hcase⟩ := norm_step_cases p1 hat hne
  refine ⟨k, k1, k2, ?_⟩
  have hat2 := hat.drop_next k k2
  have hlen := hat.length_eq
  rcases hcase with ⟨e1, e2, ek, hsl⟩ | ⟨e1, e2, hs⟩ | ⟨e1, e2, hs⟩
  · -- a byte is written
    rw [e1, e2, e3]
    have hp1 : p1 < buf.length := by omega
    have hat3 : At (poke buf p1 (peek buf p2)) (p2 + k) (r.drop k) :=
      hat2.poke_below _ _ (by omega)
    have htake := take_poke buf p1 (peek buf p2) hp1
    refine ⟨⟨hat3, by omega, ?_, ?_, ?_⟩, by simp [poke]⟩
    · rw [htake]
      simp only [List.mem_append, List.mem_singleton, not_or]
      exact ⟨hnul, fun e => hne e.symm⟩
    · rw [htake, NoSlashPair, List.chain'_append]
      refine ⟨hch, List.chain'_singleton _, ?_⟩
      intro a ha b hb
      simp only [List.head?_cons, Option.mem_def, Option.some.injEq] at hb
      rintro ⟨rfl, rfl⟩
      exact hlast ha hb
    · rw [htake, List.getLast?_concat]
      intro e
      have e' : peek buf p2 = '/' := by simpa using e
      subst ek
      rw [hat3.nil_of_headD, ← hat2.nil_of_headD]
      exact hsl e'
  · -- a slash or a `.` segment is skipped
    rw [e1, e2, e3]
    exact ⟨⟨hat2, by omega, hnul, hch, fun e => absurd hs (hlast e)⟩, rfl⟩
  · -- one level up
    rw [e1, e2, e3]
    have hg := go_up_le buf p1
    have htt : buf.take (go_up buf p1) = (buf.take p1).take (go_up buf p1) := by
      rw [List.take_take, min_eq_left hg]
    refine ⟨⟨hat2, by omega, ?_, ?_, fun e => absurd e (go_up_last buf p1 hch)⟩, rfl⟩
    · rw [htt]
      exact fun hm => hnul (List.mem_of_mem_take hm)
    · rw [htt]
      exact List.Chain'.take hch _

theorem norm_main_inv (fuel : Nat) : ∀ (buf : List Char) (p1 p2 : Nat) (r : List Char),
    NormInv buf p1 p2 r → r.length < fuel →
    ∃ buf2 q1 q2, norm_main fuel buf p1 p2 = some (buf2, q1) ∧ NormInv buf2 q1 q2 [] ∧
      buf2.length = buf.length := by
  induction fuel with
  | zero => intro buf p1 p2 r _ hf; exact absurd hf (by omega)
  | succ fuel ih =>
    intro buf p1 p2 r h hf
    rw [norm_main_succ]
    by_cases hne : peek buf p2 = NUL
    · rw [if_neg (by simpa using hne)]
      have hr : r = [] := by
        have := h.1.nil_of_headD
        rw [hne] at this
        exact eq_nil_of_headD h.1.1 this.symm
      subst hr
      exact ⟨buf, p1, p2, rfl, h, rfl⟩
    · rw [if_pos hne]
      obtain ⟨k, k1, k2, hinv, hl⟩ := norm_step_inv h hne
      obtain ⟨buf2, q1, q2, e, hfin, hl2⟩ := ih _ _ _ _ hinv (by simp; omega)
      exact ⟨buf2, q1, q2, e, hfin, by rw [hl2, hl]⟩

theorem cstr_poke_take (buf : List Char) (p : Nat) (hp : p < buf.length)
    (hnul : NUL ∉ buf.take p) : cstr (poke buf p NUL) 0 = buf.take p := by
  rw [poke, List.set_eq_take_cons_drop _ hp, cstr, List.drop_zero, upto_nul_append _ _ hnul]

theorem normalize_block (t : List Char) (ht : NUL ∉ t) :
    ∃ buf2 len, _normalize_path (t ++ [NUL]) = some (buf2, len) ∧
      (cstr buf2 0).length = len ∧ len ≤ t.length ∧ NoSlashPair (cstr buf2 0) ∧
      NUL ∉ cstr buf2 0 ∧ buf2.length = t.length + 1 := by
  have h0 : At (t ++ [NUL]) 0 t := ⟨ht, [], rfl, rfl⟩
  obtain ⟨k, e1, hk⟩ := norm_lead_total ((t ++ [NUL]).length + 1) (t ++ [NUL]) 0 t h0
    (by simp; omega)
  have hat := h0.drop_next k hk
  have hinv : NormInv (t ++ [NUL]) 0 (0 + k) (t.drop k) :=
    ⟨hat, by omega, by simp, by simp [NoSlashPair], by simp⟩
  obtain ⟨buf2, q1, q2, e2, hfin, hl⟩ := norm_main_inv ((t ++ [NUL]).length + 1) _ _ _ _ hinv
    (by simp; omega)
  obtain ⟨f1, f2, f3, f4, _⟩ := hfin
  have hlen := f1.length_eq
  have hq : q1 < buf2.length := by simp at hlen; omega
  have hc := cstr_poke_take buf2 q1 hq f3
  refine ⟨poke buf2 q1 NUL, q1, ?_, ?_, ?_, ?_, ?_, ?_⟩
  · simp only [_normalize_path, e1, e2, Option.bind_eq_bind, Option.some_bind, Option.pure_def]
  · rw [hc, List.length_take]
    omega
  · simp at hlen hl
    omega
  · rw [hc]
    exact f4
  · rw [hc]
    exact f3
  · simp [poke, hl]

/-! ## The texts the resolver reads -/

theorem upto_nul_append_left (val after : List Char) (h : NUL ∉ val) :
    upto_nul (val ++ after) = val ++ upto_nul after := by
  induction val with
  | nil => rfl
  | cons x xs ih =>
    simp only [List.mem_cons, not_or] at h
    have hx : x ≠ NUL := fun e => h.1 e.symm
    simp [upto_nul, hx, ih h.2]

theorem upto_nul_take_left (val after : List Char) (h : NUL ∉ val) :
    (upto_nul (val ++ after)).take val.length = val := by
  rw [upto_nul_append_left _ _ h, List.take_left]

theorem strlcpy_left (val after : List Char) (h : NUL ∉ val) :
    strlcpy (val ++ after) (val.length + 1) = val := by
  rw [strlcpy, Nat.add_sub_cancel, upto_nul_take_left _ _ h]

theorem str_prec_left (val after : List Char) (h : NUL ∉ val) :
    str_prec val.length (val ++ after) = val := by
  rw [str_prec, upto_nul_take_left _ _ h]

theorem peek_zero (l : List Char) : peek l 0 = l.headD NUL := by
  cases l <;> rfl

theorem last_at_upto_nul (c : Char) (l : List Char) : last_at c l = last_at c (upto_nul l) := by
  induction l with
  | nil => rfl
  | cons x xs ih =>
    by_cases hx : x = NUL
    · simp [last_at, upto_nul, hx]
    · simp [last_at, upto_nul, hx, ih]

theorem normalize_path_eq (t : List Char) (ht : NUL ∉ t) (buf : List Char) (len : Nat)
    (h : _normalize_path (t ++ [NUL]) = some (buf, len)) :
    normalize_path t = some (cstr buf 0) := by
  rw [normalize_path, upto_nul_of_not_mem t ht, h]
  rfl

theorem snprintf_full (size : Nat) (out : List Char) (h : out.length + 1 ≤ size) :
    snprintf size out = out := by
  rw [snprintf, List.take_of_length_le (by omega)]

theorem print_tag_path (tag t : List Char) (dst_size : Nat) (htag : NUL ∉ tag) (ht : NUL ∉ t) :
    ∃ out, normalize_path t = some out ∧
      ((_normalize_path (t ++ [NUL])).bind (fun r =>
        some (snprintf ((upto_nul tag).length + r.2 + 1 + 1)
            (upto_nul tag ++ ['/'] ++ cstr r.1 0),
          decide ((upto_nul tag).length + r.2 + 1 + 1 > dst_size)))).map Prod.fst
        = some (tag ++ '/' :: out) := by
  obtain ⟨buf2, len, e, hl, _, _, _, _⟩ := normalize_block t ht
  refine ⟨cstr buf2 0, normalize_path_eq t ht buf2 len e, ?_⟩
  rw [e, upto_nul_of_not_mem tag htag]
  simp only [Option.some_bind, Option.map_some']
  rw [snprintf_full _ _ (by simp; omega)]
  simp

theorem not_mem_base_dir (iri : IRI) : NUL ∉ base_dir iri := by
  unfold base_dir
  cases h : iri.text iri.path with
  | none => simp
  | some p =>
    have hp : NUL ∉ p := by
      simp only [IRI.text, Option.map_eq_some'] at h
      obtain ⟨o, _, rfl⟩ := h
      exact not_mem_upto_nul _
    simp only
    split
    · exact fun hm => hp (List.mem_of_mem_take hm)
    · simp

theorem relative_path_block (iri : IRI) (val after : List Char) (hnul : NUL ∉ val) :
    (match iri.path, (match iri.path with
        | some o => strrchr iri.mem o '/'
        | none => none) with
      | some o, some l =>
        snprintf ((l - o) + val.length + 2)
          (str_prec (l - o + 1) (iri.mem.drop o) ++ str_prec val.length (val ++ after)) ++ [NUL]
      | _, _ => strlcpy (val ++ after) (val.length + 1) ++ [NUL])
      = (base_dir iri ++ val) ++ [NUL] := by
  rw [str_prec_left _ _ hnul, strlcpy_left _ _ hnul]
  unfold base_dir
  cases hp : iri.path with
  | none => simp [IRI.text]
  | some o =>
    simp only [IRI.text, Option.map_some', cstr, strrchr]
    rw [← last_at_upto_nul]
    cases hl : last_at '/' (iri.mem.drop o) with
    | none => simp
    | some k =>
      simp only [Option.map_some', Nat.add_sub_cancel_left, str_prec]
      rw [snprintf_full]
      simp only [List.length_append, List.length_take]
      omega

theorem norm_step_le (buf : List Char) (p1 p2 : Nat) (h : p1 ≤ p2) :
    (norm_step buf p1 p2).2.1 ≤ (norm_step buf p1 p2).2.2 := by
  have := go_up_le buf p1
  simp only [norm_step]
  split_ifs <;> simp only <;> omega

theorem norm_step_iterate_le (buf : List Char) (p2 n : Nat) :
    ((fun s : List Char × Nat × Nat => norm_step s.1 s.2.1 s.2.2)^[n] (buf, 0, p2)).2.1 ≤
    ((fun s : List Char × Nat × Nat => norm_step s.1 s.2.1 s.2.2)^[n] (buf, 0, p2)).2.2 := by
  induction n with
  | zero => simp
  | succ n ih =>
    rw [Function.iterate_succ_apply']
    exact norm_step_le _ _ _ ih

/-! ## Concrete runs -/

/-- C1 (as amended): `parse("http://user@host:8080/p/q?x=1#f")` yields scheme `http`,
userinfo `user`, host `host`, port `8080`, path `p/q` (the path field starts after
the slash that ends the authority), query `x=1` and fragment `f`. -/
theorem parse_http_example :
    parse "http://user@host:8080/p/q?x=1#f" =
      { scheme := some "http".toList, userinfo := some "user".toList,
        host := some "host".toList, port := some "8080".toList,
        path := some "p/q".toList, query := some "x=1".toList,
        fragment := some "f".toList } := by
  decide

/-- C1 (counterexample): the path field of `parse("http://user@host:8080/p/q?x=1#f")`
is not `/p/q`, so the result is not the one with the leading slash in the path. -/
theorem parse_http_example_path_has_no_slash :
    ¬ (parse "http://user@host:8080/p/q?x=1#f" =
      { scheme := some "http".toList, userinfo := some "user".toList,
        host := some "host".toList, port := some "8080".toList,
        path := some "/p/q".toList, query := some "x=1".toList,
        fragment := some "f".toList }) := by
  decide

/-- C2 (the code at the failing input): in `svn+ssh://host/x` the first of the seven
gen-delimiters is the `:` after `svn+ssh`, yet `iri_parse` finds no scheme: the scan of
lines 117-118 stops at `+`, which the table marks with the same bit as a gen-delimiter. -/
theorem parse_scheme_stops_at_subdelim :
    "svn+ssh://host/x".toList.takeWhile (fun c => c ∉ spec_gen_delims) = "svn+ssh".toList ∧
    ("svn+ssh://host/x".toList.dropWhile (fun c => c ∉ spec_gen_delims)).head? = some ':' ∧
    _iri_isgendelim '+' = true ∧
    (parse "svn+ssh://host/x").scheme = none := by
  decide

/-- C6: `parse("mailto:foo@bar")` yields scheme `mailto`, userinfo `foo`, host `bar`,
and no port, path, query or fragment. -/
theorem parse_mailto_example :
    parse "mailto:foo@bar" =
      { scheme := some "mailto".toList, userinfo := some "foo".toList,
        host := some "bar".toList, port := none, path := none, query := none,
        fragment := none } := by
  decide

/-- C9 (as amended): the path normalizer drops the leading slash of an absolute path
while collapsing dot segments: `/a/b/../c` gives `a/c`, `/a/./b/` gives `a/b/` and
`/../a` gives `a`. -/
theorem normalize_path_examples :
    normalize_path "/a/b/../c".toList = some "a/c".toList ∧
    normalize_path "/a/./b/".toList = some "a/b/".toList ∧
    normalize_path "/../a".toList = some "a".toList := by
  decide

/-- C9 (counterexample): the normalizer does not return `/a/c`, `/a/b/` and `/a` for
`/a/b/../c`, `/a/./b/` and `/../a`; none of the three results keeps the leading slash. -/
theorem normalize_path_drops_leading_slash :
    ¬ (normalize_path "/a/b/../c".toList = some "/a/c".toList ∧
       normalize_path "/a/./b/".toList = some "/a/b/".toList ∧
       normalize_path "/../a".toList = some "/a".toList) := by
  decide

/-- C10 (the code at the failing input): normalizing `x/../.y` gives `/.y`, and
normalizing `/.y` gives `.y`, so the normalizer is not idempotent at `x/../.y`. -/
theorem normalize_path_not_idempotent :
    normalize_path "x/../.y".toList = some "/.y".toList ∧
    normalize_path "/.y".toList = some ".y".toList ∧
    (normalize_path "x/../.y".toList).bind normalize_path ≠ normalize_path "x/../.y".toList := by
  decide

/-! ## The connection part -/

/-- C8: on a reference whose host is present, `iri_get_connection_part` writes
`scheme://host:port` when scheme and port are present, `scheme://host` when only the
scheme is, `host:port` when only the port is, and `host` when neither is. -/
theorem connection_part_format (iri : IRI) (tagsize : Nat) (host : List Char)
    (hh : iri.text iri.host = some host) :
    (iri_get_connection_part iri tagsize).map Prod.fst =
      some (match iri.text iri.scheme, iri.text iri.port with
        | some scheme, some port => scheme ++ "://".toList ++ host ++ ":".toList ++ port
        | some scheme, none => scheme ++ "://".toList ++ host
        | none, some port => host ++ ":".toList ++ port
        | none, none => host) := by
  unfold iri_get_connection_part
  cases hs : iri.scheme <;> cases hp : iri.port <;> cases hq : iri.host <;>
    simp [IRI.text, hs, hp, hq] at hh ⊢ <;> exact hh

/-- C8 (witness): scheme `https`, host `example.com` and no port give
`https://example.com`. -/
theorem connection_part_format_witness :
    (iri_parse "https://example.com".toList).text (iri_parse "https://example.com".toList).host
        = some "example.com".toList ∧
    (iri_parse "https://example.com".toList).port = none ∧
    (iri_get_connection_part (iri_parse "https://example.com".toList) 64).map Prod.fst
        = some "https://example.com".toList := by
  refine ⟨by decide, by decide, ?_⟩
  have h := connection_part_format (iri_parse "https://example.com".toList) 64
    "example.com".toList (by decide)
  rw [h]
  decide

/-- C3 (the code at the failing input): for `file:///x`, and likewise for `/x`,
`http:///x` and the empty text, the authority run is empty, so lines 165-193 are skipped
and the host field stays `NULL`: it is not the empty text, and
`iri_get_connection_part`, which takes `strlen` of the host, has no defined result on
the reference that `iri_parse` returned. -/
theorem host_null_without_authority :
    authority_run "file:///x".toList = [] ∧
    (parse "file:///x").scheme = some "file".toList ∧
    (parse "file:///x").host = none ∧
    (parse "/x").host = none ∧ (parse "http:///x").host = none ∧ (parse "").host = none ∧
    iri_get_connection_part (iri_parse "file:///x".toList) 64 = none ∧
    iri_get_connection_part (iri_parse "/x".toList) 64 = none := by
  decide

/-! ## The authority -/

/-- C4: when the authority run is `[` X `]` `:` P, with none of `/ ? # @ ]` in X or P and P
not empty, `iri_parse` yields the host `[` X `]`, brackets kept, and the port P. -/
theorem bracket_host_port (t X P : List Char)
    (hauth : authority_run t = '[' :: X ++ ']' :: ':' :: P)
    (hX : ∀ c ∈ X, c ≠ '/' ∧ c ≠ '?' ∧ c ≠ '#' ∧ c ≠ '@' ∧ c ≠ ']')
    (hP : ∀ c ∈ P, c ≠ '/' ∧ c ≠ '?' ∧ c ≠ '#' ∧ c ≠ '@' ∧ c ≠ ']')
    (hne : P ≠ []) :
    (iri_parse t).parts.host = some ('[' :: X ++ [']']) ∧
    (iri_parse t).parts.port = some P := by
  have hnul := not_mem_authority_run t
  have hne2 : authority_run t ≠ [] := by rw [hauth]; simp
  rw [parts_host t hne2, parts_port, hauth]
  rw [hauth] at hnul
  have hat : ∀ c ∈ '[' :: X ++ ']' :: ':' :: P, is_at c = false := by
    intro c hc
    simp only [List.mem_cons, List.mem_append] at hc
    rcases hc with (rfl | hc) | rfl | rfl | hc
    · decide
    · simp [is_at, (hX c hc).2.2.2.1]
    · decide
    · decide
    · simp [is_at, (hP c hc).2.2.2.1]
  have hhp : host_part ('[' :: X ++ ']' :: ':' :: P) = '[' :: X ++ ']' :: ':' :: P := by
    simp only [host_part, (seg_rest_all is_at _ hat).2]
  have hlast : last_at ']' (('[' :: X) ++ ']' :: (':' :: P)) = some ('[' :: X).length := by
    apply last_at_split _ (by decide)
    · intro hm
      exact hnul (List.mem_append_left _ hm)
    · intro hm
      simp only [List.mem_cons] at hm
      rcases hm with hm | hm
      · exact absurd hm (by decide : ¬ (']' : Char) = ':')
      · exact (hP _ hm).2.2.2.2 rfl
  have hlen : host_len ('[' :: X ++ ']' :: ':' :: P) = X.length + 2 := by
    rw [host_len, if_pos (by simp)]
    rw [show '[' :: X ++ ']' :: ':' :: P = ('[' :: X) ++ ']' :: (':' :: P) from by simp, hlast]
    simp
  rw [hhp, host_text, port_text, hlen]
  have e1 : ('[' :: X ++ ']' :: ':' :: P).take (X.length + 2) = '[' :: X ++ [']'] := by
    rw [show '[' :: X ++ ']' :: ':' :: P = ('[' :: X ++ [']']) ++ (':' :: P) from by simp]
    rw [List.take_left' (by simp)]
  have e2 : ('[' :: X ++ ']' :: ':' :: P).drop (X.length + 2) = ':' :: P := by
    rw [show '[' :: X ++ ']' :: ':' :: P = ('[' :: X ++ [']']) ++ (':' :: P) from by simp]
    rw [List.drop_left' (by simp)]
  rw [e1, e2]
  cases P with
  | nil => exact absurd rfl hne
  | cons c P2 => exact ⟨rfl, rfl⟩

/-- C4 (witness): parsing `[::1]:8080` gives host `[::1]` and port `8080`. -/
theorem bracket_host_port_witness :
    authority_run "[::1]:8080".toList = '[' :: "::1".toList ++ ']' :: ':' :: "8080".toList ∧
    (iri_parse "[::1]:8080".toList).parts.host = some "[::1]".toList ∧
    (iri_parse "[::1]:8080".toList).parts.port = some "8080".toList :=
  ⟨by decide, bracket_host_port "[::1]:8080".toList "::1".toList "8080".toList (by decide)
    (by decide) (by decide) (by decide)⟩

/-- C5: when the authority run is not empty and its host part (what follows the first `@`,
or all of it) does not start with `[`, the port is present exactly when the host part has a
`:` followed by at least one byte; the host is the text before the first `:` and the port
the text after it, and a `:` with nothing after it gives that host and no port. -/
theorem plain_host_port (t : List Char) (hne : authority_run t ≠ [])
    (hb : (host_part (authority_run t)).head? ≠ some '[') :
    ((iri_parse t).parts.port.isSome ↔
      ∃ pre post, host_part (authority_run t) = pre ++ ':' :: post ∧ post ≠ []) ∧
    (∀ pre post, host_part (authority_run t) = pre ++ ':' :: post → ':' ∉ pre →
      (iri_parse t).parts.host = some pre ∧
      (post ≠ [] → (iri_parse t).parts.port = some post) ∧
      (post = [] → (iri_parse t).parts.port = none)) := by
  rw [parts_host t hne, parts_port]
  generalize host_part (authority_run t) = hp at *
  have hlen : host_len hp = (seg is_host_end hp).length := by
    rw [host_len, if_neg hb]
  have hdrop : hp.drop (host_len hp) = rest is_host_end hp := by
    rw [hlen]
    have h := List.drop_left (seg is_host_end hp) (rest is_host_end hp)
    rw [seg_append_rest] at h
    exact h
  have htake : hp.take (host_len hp) = seg is_host_end hp := by
    rw [hlen]
    have h := List.take_left (seg is_host_end hp) (rest is_host_end hp)
    rw [seg_append_rest] at h
    exact h
  have hsplit : ∀ pre post, hp = pre ++ ':' :: post → ':' ∉ pre →
      seg is_host_end hp = pre ∧ rest is_host_end hp = ':' :: post := by
    intro pre post e hpre
    rw [e]
    apply seg_rest_split
    · intro c hc
      have : c ≠ ':' := fun e2 => hpre (e2 ▸ hc)
      simp [is_host_end, this]
    · rfl
  rw [host_text, port_text, hdrop, htake]
  constructor
  · constructor
    · intro hsome
      cases hr : rest is_host_end hp with
      | nil => rw [hr] at hsome; exact absurd hsome (by simp [port_of])
      | cons x xs =>
        have hx := rest_head_stop _ _ _ _ hr
        have hx2 : x = ':' := by simpa [is_host_end] using hx
        subst hx2
        cases xs with
        | nil => rw [hr] at hsome; exact absurd hsome (by simp [port_of])
        | cons c P =>
          refine ⟨seg is_host_end hp, c :: P, ?_, by simp⟩
          rw [← hr, seg_append_rest]
    · rintro ⟨pre, post, e, hpost⟩
      -- the first colon is at or before this one, so it is followed by something too
      have hmem : ':' ∈ hp := by rw [e]; simp
      cases hr : rest is_host_end hp with
      | nil =>
        exfalso
        have := List.dropWhile_eq_nil_iff.1 hr ':' hmem
        simp [is_host_end] at this
      | cons x xs =>
        have hx := rest_head_stop _ _ _ _ hr
        have hx2 : x = ':' := by simpa [is_host_end] using hx
        subst hx2
        cases xs with
        | cons c P => simp [port_of]
        | nil =>
          exfalso
          have hj := seg_append_rest is_host_end hp
          rw [hr] at hj
          have hseg : ∀ c ∈ seg is_host_end hp, c ≠ ':' := by
            intro c hc e2
            have := List.mem_takeWhile_imp hc
            simp [is_host_end, e2] at this
          rw [e] at hj
          -- compare the two splits of the same text
          have hl : (seg is_host_end (pre ++ ':' :: post)).length = pre.length + post.length := by
            have := congrArg List.length hj
            simp at this
            omega
          have hin : ':' ∈ seg is_host_end (pre ++ ':' :: post) := by
            have hget : (seg is_host_end (pre ++ ':' :: post) ++ [':'])[pre.length]? = some ':' := by
              rw [hj, List.getElem?_append_right (le_refl _)]
              simp
            have hpost2 : 0 < post.length := List.length_pos.2 hpost
            rw [List.getElem?_append_left (by omega)] at hget
            exact List.getElem?_mem hget
          rw [← e] at hin
          exact hseg _ hin rfl
  · intro pre post e hpre
    obtain ⟨e1, e2⟩ := hsplit pre post e hpre
    rw [e1, e2]
    refine ⟨rfl, ?_, ?_⟩
    · intro hpost
      cases post with
      | nil => exact absurd rfl hpost
      | cons c P => rfl
    · intro hpost
      rw [hpost]
      rfl

/-- C5 (witness): the authority `host:` gives host `host` and no port, and the authority
`host:80` gives host `host` and port `80`. -/
theorem plain_host_port_witness :
    (authority_run "http://host:/x".toList = "host:".toList ∧
      (iri_parse "http://host:/x".toList).parts.host = some "host".toList ∧
      (iri_parse "http://host:/x".toList).parts.port = none) ∧
    (authority_run "http://u@host:80".toList = "u@host:80".toList ∧
      (iri_parse "http://u@host:80".toList).parts.host = some "host".toList ∧
      (iri_parse "http://u@host:80".toList).parts.port = some "80".toList) := by
  have h1 := (plain_host_port "http://host:/x".toList (by decide) (by decide)).2
    "host".toList [] (by decide) (by decide)
  have h2 := (plain_host_port "http://u@host:80".toList (by decide) (by decide)).2
    "host".toList "80".toList (by decide) (by decide)
  exact ⟨⟨by decide, h1.1, h1.2.2 rfl⟩, ⟨by decide, h2.1, h2.2.1 (by decide)⟩⟩

/-! ## Round trip -/

/-- C7 (as amended): for every text without NUL and leading whitespace in which `//`
goes with the scheme and nothing of the authority's host part is dropped, reassembling
`scheme://userinfo@host:port/path?query#fragment` from the fields of `iri_parse`, leaving
out each absent field with its separator, gives the text back; the path may have any
segments. -/
theorem reassemble_parse (t : List Char) (hnul : NUL ∉ t) (hsp : t.dropWhile isspace = t)
    (hmark : marker_ok t = true) (hport : port_ok (host_part (authority_run t)) = true) :
    reassemble (iri_parse t).parts = t := by
  have hc := clean_self t hnul hsp
  rw [authority_run_eq, hc] at hport
  rw [iri_parse_parts, hc]
  simp only [reassemble, parts_spec]
  have h1 := marker_join t hmark
  have h2 := rest_join (after_slashes (after_scheme t))
  have h3 := user_join (auth_text (after_slashes (after_scheme t)))
  have h4 := port_join _ hport
  generalize after_slashes (after_scheme t) = r at *
  generalize hauth : auth_text r = auth at *
  have hhost : (match (if auth = [] then none else some (host_text (host_part auth))) with
      | some x => x | none => []) = host_text (host_part auth) := by
    by_cases he : auth = []
    · subst he
      rfl
    · simp [he]
  generalize host_part auth = hp at *
  rw [hhost]
  calc _ = (match scheme_text t with | some S => S ++ [':', '/', '/'] | none => []) ++
        (((match user_text auth with | some U => U ++ ['@'] | none => []) ++
          (host_text hp ++ (match port_text hp with | some P => ':' :: P | none => []))) ++
          (match path_text r with | some F => '/' :: F | none => []) ++
          (match query_text r with | some F => '?' :: F | none => []) ++
          (match fragment_text r with | some F => '#' :: F | none => [])) := by
        simp only [List.append_assoc]
    _ = t := by rw [h4, h3, h2, h1]

/-- C7 (witness): `http://user@host:8080/a/./b//c?x=1#f` is reassembled from its fields,
dot segments and double slash included. -/
theorem reassemble_parse_witness :
    marker_ok "http://user@host:8080/a/./b//c?x=1#f".toList = true ∧
    reassemble (iri_parse "http://user@host:8080/a/./b//c?x=1#f".toList).parts
      = "http://user@host:8080/a/./b//c?x=1#f".toList :=
  ⟨by decide, reassemble_parse "http://user@host:8080/a/./b//c?x=1#f".toList (by decide)
    (by decide) (by decide) (by decide)⟩

/-- C7 (counterexample): `mailto:foo@bar` has no path and `http://host:/x` has the path `x`,
so neither has a `.`, `..` or empty path segment; the first is reassembled as
`mailto://foo@bar` and the second as `http://host/x`. -/
theorem reassemble_not_identity :
    (plain_path (parse "mailto:foo@bar").path = true ∧
      reassemble (parse "mailto:foo@bar") = "mailto://foo@bar".toList ∧
      reassemble (parse "mailto:foo@bar") ≠ "mailto:foo@bar".toList) ∧
    (plain_path (parse "http://host:/x").path = true ∧
      reassemble (parse "http://host:/x") = "http://host/x".toList ∧
      reassemble (parse "http://host:/x") ≠ "http://host:/x".toList) := by
  decide

/-! ## The classifier and the leading slash -/

/-- C15 (the code at the failing input): `!` and `=` are not among the seven
gen-delimiters, yet `iri_isgendelim` is true for both, and it is true for `:` as well:
the table entry of a sub-delimiter carries the bit that `_iri_isgendelim` tests. -/
theorem isgendelim_true_on_subdelim :
    '!' ∉ spec_gen_delims ∧ '=' ∉ spec_gen_delims ∧
    iri_isgendelim '!' = true ∧ iri_isgendelim '=' = true ∧ iri_isgendelim ':' = true ∧
    IRI_CTYPE_SUBDELIM = IRI_CTYPE_GENDELIM := by
  decide

/-- C17 (the code at the failing input): the normalized form of `x/../.y` is `/.y`,
which begins with a slash: the `/` before `.y` is met while nothing is written
(`/../` has moved the write cursor back to the start) and is copied all the same. -/
theorem normalize_path_leading_slash :
    normalize_path "x/../.y".toList = some "/.y".toList ∧
    (normalize_path "x/../.y".toList).bind List.head? = some '/' ∧
    norm_lead 8 ("x/../.y".toList ++ [NUL]) 0 = some 0 ∧
    go_up ("x/../.y".toList ++ [NUL]) 1 = 0 := by
  decide

/-! ## The end of the scan -/

/-- C20: for every input, when the authority / path / query / fragment scan is over the
scan position `s` is the offset of the terminating NUL of the text parsed (the input after
its leading whitespace), so `*s` is NUL and the branch that reports an unparsed rest is
never taken. -/
theorem scan_consumes_input (s_uri : List Char) :
    (iri_scan s_uri).s = (clean s_uri).length ∧
    (iri_scan s_uri).iri.mem.length = (clean s_uri).length + 1 ∧
    peek (iri_scan s_uri).iri.mem (iri_scan s_uri).s = NUL :=
  ⟨iri_scan_end s_uri, iri_scan_length s_uri, (iri_scan_spec s_uri).2.2.2.2.2.1⟩

/-! ## Parsing an assembled text -/

/-- C19: for S not empty and made of letters, digits, `-` and `.`, U without `/ ? # @`,
H without `/ ? # @ :` and not starting with `[`, P not empty and without `/ ? # @`,
PA without `? #`, Q without `#`, and any F (all of them without NUL),
`iri_parse` of `S://U@H:P/PA?Q#F` yields scheme S, userinfo U, host H, port P, path PA,
query Q and fragment F. -/
theorem parse_assembled (S U H P PA Q F : List Char)
    (hS : S ≠ []) (hSc : ∀ c ∈ S, is_scheme_byte c = true)
    (hU : ∀ c ∈ U, c ≠ '/' ∧ c ≠ '?' ∧ c ≠ '#' ∧ c ≠ '@')
    (hH : ∀ c ∈ H, c ≠ '/' ∧ c ≠ '?' ∧ c ≠ '#' ∧ c ≠ '@' ∧ c ≠ ':')
    (hHb : H.head? ≠ some '[')
    (hP : P ≠ []) (hPc : ∀ c ∈ P, c ≠ '/' ∧ c ≠ '?' ∧ c ≠ '#' ∧ c ≠ '@')
    (hPA : ∀ c ∈ PA, c ≠ '?' ∧ c ≠ '#') (hQ : ∀ c ∈ Q, c ≠ '#')
    (hnul : NUL ∉ U ++ H ++ P ++ PA ++ Q ++ F) :
    (iri_parse (S ++ ':' :: '/' :: '/' :: (U ++ '@' :: (H ++ ':' :: P)
      ++ '/' :: (PA ++ '?' :: (Q ++ '#' :: F))))).parts =
      { scheme := some S, userinfo := some U, host := some H, port := some P,
        path := some PA, query := some Q, fragment := some F } := by
  simp only [List.mem_append, not_or] at hnul
  obtain ⟨⟨⟨⟨⟨nU, nH⟩, nP⟩, nPA⟩, nQ⟩, nF⟩ := hnul
  -- the text is the C string parsed
  have hclean : clean (S ++ ':' :: '/' :: '/' :: (U ++ '@' :: (H ++ ':' :: P)
      ++ '/' :: (PA ++ '?' :: (Q ++ '#' :: F))))
      = S ++ ':' :: '/' :: '/' :: (U ++ '@' :: (H ++ ':' :: P)
      ++ '/' :: (PA ++ '?' :: (Q ++ '#' :: F))) := by
    apply clean_self
    · simp only [List.mem_append, List.mem_cons, not_or]
      have nS : NUL ∉ S := fun hm => scheme_byte_ne_nul _ (hSc _ hm) rfl
      refine ⟨nS, by decide, by decide, by decide, ⟨nU, by decide, nH, by decide, nP⟩,
        by decide, nPA, by decide, nQ, by decide, nF⟩
    · cases S with
      | nil => exact absurd rfl hS
      | cons c cs =>
        have := scheme_byte_not_space c (hSc c (List.mem_cons_self _ _))
        simp [List.dropWhile, this]
  rw [iri_parse_parts, hclean]
  -- scheme
  obtain ⟨e1, e2⟩ := seg_rest_split _iri_isgendelim S ':' ('/' :: '/' :: (U ++ '@' ::
    (H ++ ':' :: P) ++ '/' :: (PA ++ '?' :: (Q ++ '#' :: F))))
    (fun c hc => scheme_byte_not_marked c (hSc c hc)) (by decide)
  -- authority
  have hauthc : ∀ c ∈ U ++ '@' :: (H ++ ':' :: P), is_auth_end c = false := by
    intro c hc
    simp only [List.mem_append, List.mem_cons] at hc
    rcases hc with hc | rfl | hc | rfl | hc
    · simp [is_auth_end, (hU c hc).1, (hU c hc).2.1, (hU c hc).2.2.1]
    · decide
    · simp [is_auth_end, (hH c hc).1, (hH c hc).2.1, (hH c hc).2.2.1]
    · decide
    · simp [is_auth_end, (hPc c hc).1, (hPc c hc).2.1, (hPc c hc).2.2.1]
  obtain ⟨a1, a2⟩ := seg_rest_split is_auth_end (U ++ '@' :: (H ++ ':' :: P)) '/'
    (PA ++ '?' :: (Q ++ '#' :: F)) hauthc (by decide)
  obtain ⟨p1, p2⟩ := seg_rest_split is_path_end PA '?' (Q ++ '#' :: F)
    (fun c hc => by simp [is_path_end, (hPA c hc).1, (hPA c hc).2]) (by decide)
  obtain ⟨q1, q2⟩ := seg_rest_split is_query_end Q '#' F
    (fun c hc => by simp [is_query_end, hQ c hc]) (by decide)
  obtain ⟨u1, u2⟩ := seg_rest_split is_at U '@' (H ++ ':' :: P)
    (fun c hc => by simp [is_at, (hU c hc).2.2.2]) (by decide)
  obtain ⟨h1, h2⟩ := seg_rest_split is_host_end H ':' P
    (fun c hc => by simp [is_host_end, (hH c hc).2.2.2.2]) (by decide)
  have hsch : scheme_text (S ++ ':' :: '/' :: '/' :: (U ++ '@' :: (H ++ ':' :: P)
      ++ '/' :: (PA ++ '?' :: (Q ++ '#' :: F)))) = some S := by
    simp only [scheme_text, e1, e2, List.head?_cons, if_true]
  have haft : after_slashes (after_scheme (S ++ ':' :: '/' :: '/' :: (U ++ '@' ::
      (H ++ ':' :: P) ++ '/' :: (PA ++ '?' :: (Q ++ '#' :: F)))))
      = U ++ '@' :: (H ++ ':' :: P) ++ '/' :: (PA ++ '?' :: (Q ++ '#' :: F)) := by
    simp only [after_scheme, e2, List.head?_cons, if_true, List.tail_cons, after_slashes_cons]
  have hauth : auth_text (U ++ '@' :: (H ++ ':' :: P) ++ '/' :: (PA ++ '?' :: (Q ++ '#' :: F)))
      = U ++ '@' :: (H ++ ':' :: P) := a1
  have hra : rem_auth (U ++ '@' :: (H ++ ':' :: P) ++ '/' :: (PA ++ '?' :: (Q ++ '#' :: F)))
      = '/' :: (PA ++ '?' :: (Q ++ '#' :: F)) := a2
  have hpath : path_text (U ++ '@' :: (H ++ ':' :: P) ++ '/' :: (PA ++ '?' :: (Q ++ '#' :: F)))
      = some PA := by
    simp only [path_text, hra, field_text, List.head?_cons, if_true, List.tail_cons, p1]
  have hrp : rem_path (U ++ '@' :: (H ++ ':' :: P) ++ '/' :: (PA ++ '?' :: (Q ++ '#' :: F)))
      = '?' :: (Q ++ '#' :: F) := by
    simp only [rem_path, hra, field_rest, List.head?_cons, if_true, List.tail_cons, p2]
  have hquery : query_text (U ++ '@' :: (H ++ ':' :: P) ++ '/' :: (PA ++ '?' :: (Q ++ '#' :: F)))
      = some Q := by
    simp only [query_text, hrp, field_text, List.head?_cons, if_true, List.tail_cons, q1]
  have hrq : rem_query (U ++ '@' :: (H ++ ':' :: P) ++ '/' :: (PA ++ '?' :: (Q ++ '#' :: F)))
      = '#' :: F := by
    simp only [rem_query, hrp, field_rest, List.head?_cons, if_true, List.tail_cons, q2]
  have hfrag : fragment_text (U ++ '@' :: (H ++ ':' :: P) ++ '/' ::
      (PA ++ '?' :: (Q ++ '#' :: F))) = some F := by
    simp only [fragment_text, hrq, List.head?_cons, if_true, List.tail_cons]
  have huser : user_text (U ++ '@' :: (H ++ ':' :: P)) = some U := by
    simp only [user_text, u1, u2]
  have hhp : host_part (U ++ '@' :: (H ++ ':' :: P)) = H ++ ':' :: P := by
    simp only [host_part, u2]
  have hbr : ¬ (H ++ ':' :: P).head? = some '[' := by
    cases H with
    | nil => simp
    | cons x xs => simpa using hHb
  have hlen : host_len (H ++ ':' :: P) = H.length := by
    rw [host_len, if_neg hbr, h1]
  have hhost : host_text (H ++ ':' :: P) = H := by
    rw [host_text, hlen, List.take_left]
  have hport : port_text (H ++ ':' :: P) = some P := by
    rw [port_text, hlen, List.drop_left]
    cases P with
    | nil => exact absurd rfl hP
    | cons c cs => rfl
  have hne : ¬ U ++ '@' :: (H ++ ':' :: P) = [] := by simp
  simp only [parts_spec, hsch, haft, hauth, hpath, hquery, hfrag, huser, hhp, hhost, hport,
    hne, if_false]

/-- C19 (witness): `http://user@host:8080/p/q?x=1#f` assembled from its seven components
parses back into them. -/
theorem parse_assembled_witness :
    (iri_parse ("http".toList ++ ':' :: '/' :: '/' :: ("user".toList ++ '@' ::
      ("host".toList ++ ':' :: "8080".toList) ++ '/' :: ("p/q".toList ++ '?' ::
      ("x=1".toList ++ '#' :: "f".toList))))).parts =
      { scheme := some "http".toList, userinfo := some "user".toList,
        host := some "host".toList, port := some "8080".toList,
        path := some "p/q".toList, query := some "x=1".toList,
        fragment := some "f".toList } :=
  parse_assembled "http".toList "user".toList "host".toList "8080".toList "p/q".toList
    "x=1".toList "f".toList (by decide) (by decide) (by decide) (by decide) (by decide)
    (by decide) (by decide) (by decide) (by decide) (by decide)

/-! ## The resolver -/

/-- C14: when the `len` bytes `val` of the relative text do not start with `/` and have a
`:` among them, `iri_relative_to_absolute` leaves exactly `val` in `dst`, whatever the
base and the tag are. -/
theorem resolve_absolute_uri (iri : IRI) (tag val after : List Char) (dst_size : Nat)
    (hnul : NUL ∉ val) (hslash : val.head? ≠ some '/') (hcolon : ':' ∈ val) :
    (iri_relative_to_absolute iri tag (val ++ after) val.length dst_size).map Prod.fst
      = some val := by
  have h0 : ¬ peek (val ++ after) 0 = '/' := by
    rw [peek_zero]
    cases val with
    | nil => simp at hcolon
    | cons x xs => simpa using hslash
  have hmem : ':' ∈ (val ++ after).take val.length := by
    rw [List.take_left]
    exact hcolon
  simp only [iri_relative_to_absolute, h0, if_false, hmem, if_true, Option.map_some',
    strlcpy_left _ _ hnul]

/-- C14 (witness): the relative text `https://elsewhere/y` is returned as it is. -/
theorem resolve_absolute_uri_witness :
    (iri_relative_to_absolute (iri_parse "http://h/a/b/c".toList) "http://h".toList
      ("https://elsewhere/y".toList ++ []) "https://elsewhere/y".toList.length 0).map Prod.fst
      = some "https://elsewhere/y".toList :=
  resolve_absolute_uri (iri_parse "http://h/a/b/c".toList) "http://h".toList
    "https://elsewhere/y".toList [] 0 (by decide) (by decide) (by decide)

/-- C13: when the relative text `val` starts with a single `/` (its second byte, if any,
is not `/`), `iri_relative_to_absolute` leaves the tag, a `/` and the normalized `val`
in `dst`, whatever the base is. -/
theorem resolve_absolute_path (iri : IRI) (tag val after : List Char) (dst_size : Nat)
    (hnul : NUL ∉ val) (htag : NUL ∉ tag) (h0 : val.head? = some '/')
    (h1 : val.tail.head? ≠ some '/') :
    ∃ out, normalize_path val = some out ∧
      (iri_relative_to_absolute iri tag (val ++ after) val.length dst_size).map Prod.fst
        = some (tag ++ '/' :: out) := by
  obtain ⟨out, e1, e2⟩ := print_tag_path tag val dst_size htag hnul
  refine ⟨out, e1, ?_⟩
  have c0 : peek (val ++ after) 0 = '/' := by
    rw [peek_zero]
    cases val with
    | nil => simp at h0
    | cons x xs => simpa using h0
  have c1 : ¬ (val.length ≥ 2 ∧ peek (val ++ after) 1 = '/') := by
    rintro ⟨hl, hp⟩
    match val, hl, h1, hp with
    | x :: y :: ys, _, h1, hp =>
      simp only [List.tail_cons, List.head?_cons, ne_eq, Option.some.injEq] at h1
      exact h1 hp
  simp only [iri_relative_to_absolute, c0, if_true, c1, if_false, strlcpy_left _ _ hnul,
    Option.bind_eq_bind, Option.pure_def]
  exact e2

/-- C13 (witness): the relative text `/x/./y` against the tag `https://h` gives
`https://h/x/y`. -/
theorem resolve_absolute_path_witness :
    normalize_path "/x/./y".toList = some "x/y".toList ∧
    (iri_relative_to_absolute (iri_parse "https://h/a/b/c".toList) "https://h".toList
      ("/x/./y".toList ++ []) "/x/./y".toList.length 0).map Prod.fst
      = some "https://h/x/y".toList := by
  obtain ⟨out, e1, e2⟩ := resolve_absolute_path (iri_parse "https://h/a/b/c".toList)
    "https://h".toList "/x/./y".toList [] 0 (by decide) (by decide) (by decide) (by decide)
  have h : normalize_path "/x/./y".toList = some "x/y".toList := by decide
  rw [h] at e1
  injection e1 with e1
  subst e1
  exact ⟨h, e2⟩

/-- The relative-path case of the resolver: when the byte the code reads at `val` is not
`/` and the `len` bytes of `val` have no `:`, `iri_relative_to_absolute` leaves the tag, a
`/` and the normalized `dir ++ val` in `dst`, where `dir` is the path field of the base up
through its last `/` (empty without a path or without a `/` in it). For a `val` that is
not empty the byte read is the first byte of `val`. -/
theorem resolve_relative_path (iri : IRI) (tag val after : List Char) (dst_size : Nat)
    (hnul : NUL ∉ val) (htag : NUL ∉ tag) (hslash : (val ++ after).head? ≠ some '/')
    (hcolon : ':' ∉ val) :
    ∃ out, normalize_path (base_dir iri ++ val) = some out ∧
      (iri_relative_to_absolute iri tag (val ++ after) val.length dst_size).map Prod.fst
        = some (tag ++ '/' :: out) := by
  have hdir : NUL ∉ base_dir iri ++ val := by
    simp only [List.mem_append, not_or]
    exact ⟨not_mem_base_dir iri, hnul⟩
  obtain ⟨out, e1, e2⟩ := print_tag_path tag (base_dir iri ++ val) dst_size htag hdir
  refine ⟨out, e1, ?_⟩
  have c0 : ¬ peek (val ++ after) 0 = '/' := by
    rw [peek_zero]
    cases hva : val ++ after with
    | nil => simp only [List.headD_nil]; decide
    | cons x xs =>
      rw [hva] at hslash
      simpa using hslash
  have c1 : ¬ ':' ∈ (val ++ after).take val.length := by
    rw [List.take_left]
    exact hcolon
  simp only [iri_relative_to_absolute, c0, if_false, c1, Option.bind_eq_bind, Option.pure_def]
  rw [relative_path_block iri val after hnul]
  exact e2

/-- The relative-path case at a concrete input: base `http://h/a/b/c`, tag `http://h` and
relative text `../d` give `http://h/a/d`. -/
theorem resolve_relative_path_witness :
    base_dir (iri_parse "http://h/a/b/c".toList) = "a/b/".toList ∧
    normalize_path "a/b/../d".toList = some "a/d".toList ∧
    (iri_relative_to_absolute (iri_parse "http://h/a/b/c".toList) "http://h".toList
      ("../d".toList ++ []) "../d".toList.length 0).map Prod.fst
      = some "http://h/a/d".toList := by
  obtain ⟨out, e1, e2⟩ := resolve_relative_path (iri_parse "http://h/a/b/c".toList)
    "http://h".toList "../d".toList [] 0 (by decide) (by decide) (by decide) (by decide)
  have hd : base_dir (iri_parse "http://h/a/b/c".toList) = "a/b/".toList := by decide
  have h : normalize_path "a/b/../d".toList = some "a/d".toList := by decide
  rw [hd] at e1
  have e3 : normalize_path "a/b/../d".toList = some out := e1
  rw [h] at e3
  injection e3 with e3
  subst e3
  exact ⟨hd, h, e2⟩

/-- C11 (the code at the failing input): with the base `http://h/a/b/c` and the tag
`http://h`, an empty relative text (`len` = 0) located right before a `/` gives
`http://h/`, while `tag/normalize(dir ++ val)` is `http://h/a/b/` (the result for an empty
text followed by NUL): line 300 reads `*val` without testing `len`, so the `/` that
follows the empty text sends it to the absolute-path branch. -/
theorem resolve_empty_val_reads_next_byte :
    (iri_relative_to_absolute (iri_parse "http://h/a/b/c".toList) "http://h".toList
      "/x".toList 0 0).map Prod.fst = some "http://h/".toList ∧
    base_dir (iri_parse "http://h/a/b/c".toList) = "a/b/".toList ∧
    normalize_path ("a/b/".toList ++ "/x".toList.take 0) = some "a/b/".toList ∧
    (iri_relative_to_absolute (iri_parse "http://h/a/b/c".toList) "http://h".toList
      [] 0 0).map Prod.fst = some "http://h/a/b/".toList := by
  decide

/-- C12 (the code at the failing input): with a base of scheme `https`, the relative
text `//other/x` gives `https://other/x`, but `//other`, which has no `/` after the
leading `//`, gives only `https:`: `dst_len` counts the path only inside the
`if ((p = strchr(path + 2, '/')))`, and `snprintf` cuts its output to `dst_len - 1` bytes. -/
theorem resolve_network_path_cut :
    (iri_relative_to_absolute (iri_parse "https://h/a".toList) "https://h".toList
      "//other/x".toList 9 0).map Prod.fst = some "https://other/x".toList ∧
    (iri_relative_to_absolute (iri_parse "https://h/a".toList) "https://h".toList
      "//other".toList 7 0).map Prod.fst = some "https:".toList ∧
    strchr ("//other".toList ++ [NUL]) 2 '/' = none := by
  decide

/-! ## The normalizer on every path -/

/-- C16: for every path, the path normalizer returns a result, and the result has no
two `/` in a row; `a//b` gives `a/b`. -/
theorem normalize_path_no_slash_pair :
    (∀ path : List Char, ∃ out, normalize_path path = some out ∧ ¬ ['/', '/'] <:+: out) ∧
    normalize_path "a//b".toList = some "a/b".toList := by
  refine ⟨fun path => ?_, by decide⟩
  obtain ⟨buf2, len, e, _, _, hch, _, _⟩ := normalize_block (upto_nul path) (not_mem_upto_nul _)
  refine ⟨cstr buf2 0, ?_, ?_⟩
  · rw [normalize_path, e]
    rfl
  · intro hin
    have hpair : NoSlashPair ['/', '/'] := List.Chain'.infix hch hin
    exact List.chain'_pair.1 hpair ⟨rfl, rfl⟩

/-- C18: for every path, `_normalize_path` returns, the value it returns is the length
of the C string it leaves in the block, and that length is at most the length of the
input; after any number of passes of the loop body from the start of the main loop
(`p1` at offset 0) the write cursor `p1` is not past the read cursor `p2`, and moving one
level up never takes `p1` forward (nor below the start of the block, offset 0). -/
theorem normalize_path_length :
    (∀ path : List Char, ∃ buf len,
      _normalize_path (upto_nul path ++ [NUL]) = some (buf, len) ∧
      normalize_path path = some (cstr buf 0) ∧
      (cstr buf 0).length = len ∧ len ≤ (upto_nul path).length) ∧
    (∀ (buf : List Char) (p2 n : Nat),
      ((fun s : List Char × Nat × Nat => norm_step s.1 s.2.1 s.2.2)^[n] (buf, 0, p2)).2.1 ≤
      ((fun s : List Char × Nat × Nat => norm_step s.1 s.2.1 s.2.2)^[n] (buf, 0, p2)).2.2) ∧
    (∀ (buf : List Char) (p1 : Nat), go_up buf p1 ≤ p1) := by
  refine ⟨fun path => ?_, norm_step_iterate_le, go_up_le⟩
  obtain ⟨buf2, len, e, hl, hle, _, _, _⟩ :=
    normalize_block (upto_nul path) (not_mem_upto_nul _)
  refine ⟨buf2, len, e, ?_, hl, hle⟩
  rw [normalize_path, e]
  rfl

end Iri
